import Mathlib

/-!
Shallow embedding of the NSLS-II/intake-bluesky repository
(`src/intake_bluesky/core.py` and `src/intake_bluesky.py`) and proofs about
the claims of its specification.

Conventions of the embedding:
* Python dicts holding documents become Lean structures; dict-valued fields
  (`data`, `filled`, `data_keys`, `configuration`) become association lists
  `List (String × _)` in insertion order, with dict assignment modelled by
  an insert-or-replace operation.
* Timestamps are naturals (only their order matters to the code).
* Generators become lists consumed in order.
* Fallible dictionary indexing (`d[k]`) is modelled in `Except PyErr`.
* `heapq` state in the interlacers always holds exactly the current head of
  every non-exhausted iterator, keyed by `(time, source index)`; popping the
  heap is therefore modelled by selecting the minimal head under the
  lexicographic `(time, index)` order.
* External collaborators (the `event_model` Filler, `event_model.rechunk_event_pages`,
  the Mongo query surface, numpy/xarray containers) are modelled from their
  documented contracts, as the spec declares them out of scope; the modelling
  is noted at each such definition.
-/

namespace IntakeBluesky

/-- Python-level errors that the translated code can raise. -/
inductive PyErr where
  | valueError
  | keyError
  | typeError
  | indexError
  | unresolvableForeignKey (key : String)
deriving DecidableEq, Repr

/-- A value held in a document field: a scalar, a datum-id string, or a
numpy array, which the code only ever inspects through `asarray(v).ndim`,
so an array is modelled by its rank plus an opaque tag. -/
inductive Value where
  | i (n : Int)
  | s (str : String)
  | arr (rank : Nat) (tag : Int)
deriving DecidableEq, Repr, Inhabited

/-- `numpy.asarray(v).ndim` for the values we model. -/
def Value.ndim : Value → Nat
  | .i _ => 0
  | .s _ => 0
  | .arr rank _ => rank

/-- One Event document: `time`, `seq_num`, `uid`, the `data` mapping and the
`filled` mapping (field -> whether the value is inline rather than a datum
reference). -/
structure Event where
  time : Nat
  seq_num : Nat
  uid : String
  data : List (String × Value)
  filled : List (String × Bool)
deriving DecidableEq, Repr, Inhabited

/-- Association-list lookup with Python `d[k]` semantics (first binding). -/
def alookup {α : Type} (m : List (String × α)) (k : String) : Option α :=
  (m.find? (fun p => p.1 == k)).map Prod.snd

/-- Field metadata from a descriptor's `data_keys` entry. -/
structure DataKeyMeta where
  dtype : String
  shape : List Nat
  dims : Option (List String)
  external : Bool          -- truthiness of `.get('external')`
deriving DecidableEq, Repr, Inhabited

/-- One device's configuration snapshot inside a descriptor. -/
structure DeviceConfig where
  data_keys : List (String × DataKeyMeta)
  data : List (String × Value)
deriving DecidableEq, Repr, Inhabited

/-- An EventDescriptor document. -/
structure Descriptor where
  uid : String
  name : String
  data_keys : List (String × DataKeyMeta)
  configuration : List (String × DeviceConfig)
deriving DecidableEq, Repr, Inhabited

/-- A RunStart document. -/
structure StartDoc where
  uid : String
  time : Nat
deriving DecidableEq, Repr, Inhabited

/-- A RunStop document. -/
structure StopDoc where
  uid : String
  time : Nat
  exit_status : String
deriving DecidableEq, Repr, Inhabited

/-- A Resource document. -/
structure Resource where
  uid : String
  spec : String
deriving DecidableEq, Repr, Inhabited

/-- A DatumPage document (columnar batch of Datum documents). -/
structure DatumPage where
  resource : String
  datum_id : List String
deriving DecidableEq, Repr, Inhabited

/-- A tagged document as emitted by `read_partition`: the constructor is the
`name` of the `(name, doc)` pair. -/
inductive Doc where
  | start (d : StartDoc)
  | descriptor (d : Descriptor)
  | event (e : Event)
  | resource (r : Resource)
  | datum_page (p : DatumPage)
  | stop (d : StopDoc)
deriving DecidableEq, Repr, Inhabited

/-- The accessor-callback bundle a `BlueskyRun` is built from, plus the
resolution map of the external-data layer (what a successful fill substitutes
for a datum id; part of the modelled `event_model.Filler` collaborator). -/
structure RunM where
  get_run_start : StartDoc
  get_run_stop : Option StopDoc
  get_event_descriptors : List Descriptor
  get_event_pages : String → List (List Event)
  get_event_count : String → Nat
  get_resource : String → Resource
  lookup_resource_for_datum : String → String
  get_datum_pages : String → List DatumPage
  resolve : String → Value

/-! ## Time-Ordered Stream Interlacer (`interlace_event_pages`) -/

/-- `flatten_event_page_gen`: an event_page generator flattened to events. -/
def flatten_event_page_gen (g : List (List Event)) : List Event := g.flatten

/-- Total number of events remaining over all sources. -/
def totalLen (srcs : List (List Event)) : Nat := (srcs.map List.length).sum

/-- The head of source `j`, if any (the heap entry contributed by source `j`:
the heap always holds the current head of every non-exhausted iterator). -/
def headAt (j : Nat) (srcs : List (List Event)) : Option Event :=
  srcs[j]?.bind List.head?

/-- Replace source `j` by its tail (after its head is popped off the heap,
`safe_next` pushes the iterator's next element, i.e. the tail's head). -/
def tailAt : Nat → List (List Event) → List (List Event)
  | _, [] => []
  | 0, s :: rest => s.tail :: rest
  | n + 1, s :: rest => s :: tailAt n rest

/-- `heapq.heappop` on the heap of `(time, index, event)` triples: the
`(time, index)` key of the minimal entry.  Ties on `time` go to the smaller
source index (tuple comparison never reaches the event because indices are
distinct). -/
def best : List (List Event) → Option (Nat × Nat)
  | [] => none
  | [] :: rest => (best rest).map (fun p => (p.1, p.2 + 1))
  | (e :: _) :: rest =>
      match best rest with
      | none => some (e.time, 0)
      | some (t, j) => if t < e.time then some (t, j + 1) else some (e.time, 0)

/-- The pop/refill loop of `interlace_event_pages`, tagged with the source
index each event came from.  `fuel` bounds the number of pops; it is
instantiated with the total number of events, after which the heap is empty. -/
def interlaceGo : Nat → List (List Event) → List (Nat × Event)
  | 0, _ => []
  | fuel + 1, srcs =>
      match best srcs with
      | none => []
      | some (_, i) =>
          match headAt i srcs with
          | none => []
          | some e => (i, e) :: interlaceGo fuel (tailAt i srcs)

/-- The interlaced stream with source tags. -/
def interlaceTagged (srcs : List (List Event)) : List (Nat × Event) :=
  interlaceGo (totalLen srcs) srcs

/-- `interlace_event_pages(*gens)`: flatten each generator's pages and merge
the event streams by `(time, source index)` through the heap. -/
def interlace_event_pages (gens : List (List (List Event))) : List Event :=
  (interlaceTagged (gens.map flatten_event_page_gen)).map Prod.snd

/-- Events compared by their `'time'` key. -/
abbrev timeLE (a b : Event) : Prop := a.time ≤ b.time

theorem mem_of_getElem?_some {α : Type} {l : List α} {i : Nat} {a : α}
    (h : l[i]? = some a) : a ∈ l := by
  obtain ⟨hi, rfl⟩ := List.getElem?_eq_some_iff.mp h
  exact List.getElem_mem hi

theorem best_none {srcs : List (List Event)} (h : best srcs = none) :
    ∀ s ∈ srcs, s = [] := by
  induction srcs with
  | nil => intro s hs; cases hs
  | cons s rest ih =>
    intro s' hs'
    cases s with
    | nil =>
      simp only [best, Option.map_eq_none'] at h
      rcases List.mem_cons.mp hs' with rfl | hs'
      · rfl
      · exact ih h s' hs'
    | cons e tl =>
      exfalso
      simp only [best] at h
      rcases hb : best rest with _ | ⟨t, j⟩ <;> rw [hb] at h
      · simp at h
      · by_cases hlt : t < e.time <;> simp [hlt] at h

theorem best_some_head {srcs : List (List Event)} {t i : Nat}
    (h : best srcs = some (t, i)) :
    ∃ e rest, srcs[i]? = some (e :: rest) ∧ e.time = t := by
  induction srcs generalizing t i with
  | nil => exact Option.noConfusion h
  | cons s rest ih =>
    cases s with
    | nil =>
      simp only [best] at h
      rcases hb : best rest with _ | ⟨t', j⟩ <;> rw [hb] at h
      · exact Option.noConfusion h
      · simp only [Option.map_some', Option.some.injEq, Prod.mk.injEq] at h
        obtain ⟨rfl, rfl⟩ := h
        obtain ⟨e, r, hget, ht⟩ := ih hb
        exact ⟨e, r, by simpa using hget, ht⟩
    | cons e tl =>
      simp only [best] at h
      rcases hb : best rest with _ | ⟨t', j⟩ <;> rw [hb] at h
      · simp only [Option.some.injEq, Prod.mk.injEq] at h
        obtain ⟨rfl, rfl⟩ := h
        exact ⟨e, tl, by simp, rfl⟩
      · by_cases hlt : t' < e.time <;>
          simp only [hlt, reduceIte, Option.some.injEq, Prod.mk.injEq] at h
        · obtain ⟨rfl, rfl⟩ := h
          obtain ⟨e', r, hget, ht⟩ := ih hb
          exact ⟨e', r, by simpa using hget, ht⟩
        · obtain ⟨rfl, rfl⟩ := h
          exact ⟨e, tl, by simp, rfl⟩

theorem best_min {srcs : List (List Event)} {t i : Nat}
    (h : best srcs = some (t, i)) :
    ∀ (j : Nat) (e : Event) (rest : List Event),
      srcs[j]? = some (e :: rest) → t ≤ e.time := by
  induction srcs generalizing t i with
  | nil => exact Option.noConfusion h
  | cons s rest ih =>
    intro j e r hj
    cases s with
    | nil =>
      simp only [best] at h
      rcases hb : best rest with _ | ⟨t', j'⟩ <;> rw [hb] at h
      · exact Option.noConfusion h
      · simp only [Option.map_some', Option.some.injEq, Prod.mk.injEq] at h
        obtain ⟨rfl, rfl⟩ := h
        cases j with
        | zero => simp at hj
        | succ j => exact ih hb j e r (by simpa using hj)
    | cons e₀ tl =>
      simp only [best] at h
      rcases hb : best rest with _ | ⟨t', j'⟩ <;> rw [hb] at h
      · simp only [Option.some.injEq, Prod.mk.injEq] at h
        obtain ⟨rfl, rfl⟩ := h
        cases j with
        | zero =>
          simp only [List.getElem?_cons_zero, Option.some.injEq,
            List.cons.injEq] at hj
          rw [← hj.1]
        | succ j =>
          exact absurd (best_none hb (e :: r)
            (mem_of_getElem?_some (by simpa using hj))) (by simp)
      · by_cases hlt : t' < e₀.time <;>
          simp only [hlt, reduceIte, Option.some.injEq, Prod.mk.injEq] at h <;>
          obtain ⟨rfl, rfl⟩ := h
        · cases j with
          | zero =>
            simp only [List.getElem?_cons_zero, Option.some.injEq,
              List.cons.injEq] at hj
            rw [← hj.1]; exact le_of_lt hlt
          | succ j => exact ih hb j e r (by simpa using hj)
        · cases j with
          | zero =>
            simp only [List.getElem?_cons_zero, Option.some.injEq,
              List.cons.injEq] at hj
            rw [← hj.1]
          | succ j =>
            have h1 := ih hb j e r (by simpa using hj)
            omega

theorem best_tie {srcs : List (List Event)} {t i : Nat}
    (h : best srcs = some (t, i)) :
    ∀ (j : Nat) (e : Event) (rest : List Event),
      j < i → srcs[j]? = some (e :: rest) → t < e.time := by
  induction srcs generalizing t i with
  | nil => exact Option.noConfusion h
  | cons s rest ih =>
    intro j e r hji hj
    cases s with
    | nil =>
      simp only [best] at h
      rcases hb : best rest with _ | ⟨t', j'⟩ <;> rw [hb] at h
      · exact Option.noConfusion h
      · simp only [Option.map_some', Option.some.injEq, Prod.mk.injEq] at h
        obtain ⟨rfl, rfl⟩ := h
        cases j with
        | zero => simp at hj
        | succ j => exact ih hb j e r (by omega) (by simpa using hj)
    | cons e₀ tl =>
      simp only [best] at h
      rcases hb : best rest with _ | ⟨t', j'⟩ <;> rw [hb] at h
      · simp only [Option.some.injEq, Prod.mk.injEq] at h
        obtain ⟨rfl, rfl⟩ := h
        omega
      · by_cases hlt : t' < e₀.time <;>
          simp only [hlt, reduceIte, Option.some.injEq, Prod.mk.injEq] at h <;>
          obtain ⟨rfl, rfl⟩ := h
        · cases j with
          | zero =>
            simp only [List.getElem?_cons_zero, Option.some.injEq,
              List.cons.injEq] at hj
            rw [← hj.1]; exact hlt
          | succ j => exact ih hb j e r (by omega) (by simpa using hj)
        · omega

theorem interlaceGo_succ_none {fuel : Nat} {srcs : List (List Event)}
    (hb : best srcs = none) : interlaceGo (fuel + 1) srcs = [] := by
  simp [interlaceGo, hb]

theorem interlaceGo_succ_some {fuel : Nat} {srcs : List (List Event)}
    {t i : Nat} {e : Event} (hb : best srcs = some (t, i))
    (hh : headAt i srcs = some e) :
    interlaceGo (fuel + 1) srcs = (i, e) :: interlaceGo fuel (tailAt i srcs) := by
  simp [interlaceGo, hb, hh]

theorem tailAt_getElem?_self (i : Nat) (srcs : List (List Event)) :
    (tailAt i srcs)[i]? = srcs[i]?.map List.tail := by
  induction srcs generalizing i with
  | nil => simp [tailAt]
  | cons s rest ih =>
    match i with
    | 0 => simp [tailAt]
    | i + 1 => simpa [tailAt] using ih i

theorem tailAt_getElem?_ne {i j : Nat} (srcs : List (List Event)) (h : j ≠ i) :
    (tailAt i srcs)[j]? = srcs[j]? := by
  induction srcs generalizing i j with
  | nil => simp [tailAt]
  | cons s rest ih =>
    match i, j with
    | 0, 0 => exact absurd rfl h
    | 0, j + 1 => simp [tailAt]
    | i + 1, 0 => simp [tailAt]
    | i + 1, j + 1 => simpa [tailAt] using ih (by omega)

theorem totalLen_tailAt {srcs : List (List Event)} {i : Nat} {e : Event}
    {r : List Event} (h : srcs[i]? = some (e :: r)) :
    totalLen (tailAt i srcs) + 1 = totalLen srcs := by
  induction srcs generalizing i with
  | nil => simp at h
  | cons s rest ih =>
    match i with
    | 0 =>
      simp only [List.getElem?_cons_zero, Option.some.injEq] at h
      subst h
      simp [tailAt, totalLen]
      omega
    | i + 1 =>
      have := ih (by simpa using h)
      simp only [tailAt, totalLen, List.map_cons, List.sum_cons]
      simp only [totalLen] at this
      omega

theorem flatten_tailAt_perm {srcs : List (List Event)} {i : Nat} {e : Event}
    {r : List Event} (h : srcs[i]? = some (e :: r)) :
    (e :: (tailAt i srcs).flatten).Perm srcs.flatten := by
  induction srcs generalizing i with
  | nil => simp at h
  | cons s rest ih =>
    match i with
    | 0 =>
      simp only [List.getElem?_cons_zero, Option.some.injEq] at h
      subst h
      simp [tailAt]
    | i + 1 =>
      have hih := ih (by simpa using h)
      simp only [tailAt, List.flatten_cons]
      have h1 : List.Perm (e :: (s ++ (tailAt i rest).flatten))
          (s ++ e :: (tailAt i rest).flatten) := List.perm_middle.symm
      have h2 : List.Perm (s ++ e :: (tailAt i rest).flatten)
          (s ++ rest.flatten) := List.Perm.append_left s hih
      exact h1.trans h2

theorem mem_interlaceGo {fuel : Nat} {srcs : List (List Event)} {j : Nat}
    {e : Event} (h : (j, e) ∈ interlaceGo fuel srcs) :
    ∃ s, srcs[j]? = some s ∧ e ∈ s := by
  induction fuel generalizing srcs with
  | zero => simp [interlaceGo] at h
  | succ fuel ih =>
    rcases hb : best srcs with _ | ⟨t, i⟩
    · rw [interlaceGo_succ_none hb] at h
      cases h
    · obtain ⟨e', r, hget, _⟩ := best_some_head hb
      have hh : headAt i srcs = some e' := by simp [headAt, hget]
      rw [interlaceGo_succ_some hb hh] at h
      rcases List.mem_cons.mp h with heq | hmem
      · rw [Prod.mk.injEq] at heq
        rw [heq.1, heq.2]
        exact ⟨e' :: r, hget, List.mem_cons_self _ _⟩
      · obtain ⟨s, hgs, hmem'⟩ := ih hmem
        by_cases hij : j = i
        · subst hij
          rw [tailAt_getElem?_self, hget] at hgs
          simp only [Option.map_some', Option.some.injEq, List.tail_cons] at hgs
          subst hgs
          exact ⟨e' :: r, hget, List.mem_cons_of_mem _ hmem'⟩
        · rw [tailAt_getElem?_ne srcs hij] at hgs
          exact ⟨s, hgs, hmem'⟩

theorem interlaceGo_perm {fuel : Nat} {srcs : List (List Event)}
    (h : totalLen srcs ≤ fuel) :
    ((interlaceGo fuel srcs).map Prod.snd).Perm srcs.flatten := by
  induction fuel generalizing srcs with
  | zero =>
    have hnil : ∀ s ∈ srcs, s = [] := by
      intro s hs
      have h0 : totalLen srcs = 0 := Nat.le_zero.mp h
      simp only [totalLen] at h0
      have := List.sum_eq_zero_iff.mp h0 s.length (List.mem_map_of_mem _ hs)
      exact List.eq_nil_of_length_eq_zero this
    have hfl : srcs.flatten = [] := List.flatten_eq_nil_iff.mpr hnil
    simp [interlaceGo, hfl]
  | succ fuel ih =>
    rcases hb : best srcs with _ | ⟨t, i⟩
    · have hfl : srcs.flatten = [] := List.flatten_eq_nil_iff.mpr (best_none hb)
      rw [interlaceGo_succ_none hb]
      simp [hfl]
    · obtain ⟨e', r, hget, _⟩ := best_some_head hb
      have hh : headAt i srcs = some e' := by simp [headAt, hget]
      rw [interlaceGo_succ_some hb hh]
      simp only [List.map_cons]
      have hlen := totalLen_tailAt hget
      have hfuel : totalLen (tailAt i srcs) ≤ fuel := by omega
      exact ((ih hfuel).cons e').trans (flatten_tailAt_perm hget)

theorem sorted_head_le {hd e' : Event} {tl : List Event}
    (hs : (hd :: tl).Pairwise timeLE) (hm : e' ∈ hd :: tl) :
    hd.time ≤ e'.time := by
  rcases List.mem_cons.mp hm with rfl | hm
  · exact le_refl _
  · exact List.rel_of_pairwise_cons hs hm

theorem tailAt_pairwise {srcs : List (List Event)} {i : Nat}
    {R : Event → Event → Prop} (h : ∀ s ∈ srcs, s.Pairwise R) :
    ∀ s ∈ tailAt i srcs, s.Pairwise R := by
  induction srcs generalizing i with
  | nil => intro s hs; simp [tailAt] at hs
  | cons s₀ rest ih =>
    intro s hs
    match i with
    | 0 =>
      rcases List.mem_cons.mp hs with rfl | hs
      · exact (h s₀ (List.mem_cons_self _ _)).sublist (List.tail_sublist s₀)
      · exact h s (List.mem_cons_of_mem _ hs)
    | i + 1 =>
      rcases List.mem_cons.mp hs with rfl | hs
      · exact h s (List.mem_cons_self _ _)
      · exact ih (fun s' hs' => h s' (List.mem_cons_of_mem _ hs')) s hs

theorem interlaceGo_sorted {fuel : Nat} {srcs : List (List Event)}
    (h : ∀ s ∈ srcs, s.Pairwise timeLE) :
    (interlaceGo fuel srcs).Pairwise (fun a b => a.2.time ≤ b.2.time) := by
  induction fuel generalizing srcs with
  | zero => simp [interlaceGo]
  | succ fuel ih =>
    rcases hb : best srcs with _ | ⟨t, i⟩
    · rw [interlaceGo_succ_none hb]
      exact List.Pairwise.nil
    · obtain ⟨e', r, hget, ht⟩ := best_some_head hb
      have hh : headAt i srcs = some e' := by simp [headAt, hget]
      rw [interlaceGo_succ_some hb hh]
      refine List.Pairwise.cons ?_ (ih (tailAt_pairwise h))
      rintro ⟨j, e₂⟩ hmem
      obtain ⟨s, hgs, hms⟩ := mem_interlaceGo hmem
      by_cases hij : j = i
      · subst hij
        rw [tailAt_getElem?_self, hget] at hgs
        simp only [Option.map_some', Option.some.injEq, List.tail_cons] at hgs
        subst hgs
        have hsrt := h (e' :: r) (mem_of_getElem?_some hget)
        exact sorted_head_le hsrt (List.mem_cons_of_mem _ hms)
      · rw [tailAt_getElem?_ne srcs hij] at hgs
        rcases s with _ | ⟨hd, tl⟩
        · cases hms
        · have h1 : t ≤ hd.time := best_min hb j hd tl hgs
          have h2 : hd.time ≤ e₂.time :=
            sorted_head_le (h _ (mem_of_getElem?_some hgs)) hms
          simp only
          omega

theorem interlaceGo_stable {fuel : Nat} {srcs : List (List Event)}
    (h : ∀ s ∈ srcs, s.Pairwise timeLE) :
    (interlaceGo fuel srcs).Pairwise
      (fun a b => a.2.time = b.2.time → a.1 ≤ b.1) := by
  induction fuel generalizing srcs with
  | zero => simp [interlaceGo]
  | succ fuel ih =>
    rcases hb : best srcs with _ | ⟨t, i⟩
    · rw [interlaceGo_succ_none hb]
      exact List.Pairwise.nil
    · obtain ⟨e', r, hget, ht⟩ := best_some_head hb
      have hh : headAt i srcs = some e' := by simp [headAt, hget]
      rw [interlaceGo_succ_some hb hh]
      refine List.Pairwise.cons ?_ (ih (tailAt_pairwise h))
      rintro ⟨j, e₂⟩ hmem heq
      simp only at heq
      by_contra hc
      have hji : j < i := by omega
      obtain ⟨s, hgs, hms⟩ := mem_interlaceGo hmem
      rw [tailAt_getElem?_ne srcs (by omega)] at hgs
      rcases s with _ | ⟨hd, tl⟩
      · cases hms
      · have h1 : t < hd.time := best_tie hb j hd tl hji hgs
        have h2 : hd.time ≤ e₂.time :=
          sorted_head_le (h _ (mem_of_getElem?_some hgs)) hms
        omega

/-- The claim C3 hypothesis: each generator's flattened events are
monotonically non-decreasing in time. -/
abbrev SortedGens (gens : List (List (List Event))) : Prop :=
  ∀ g ∈ gens, (flatten_event_page_gen g).Pairwise timeLE

/-- C3: for generators whose flattened events are non-decreasing in time,
`interlace_event_pages` yields every input event exactly once (a permutation
of the concatenated inputs), with globally non-decreasing times, and events
with equal timestamps ordered by the index of their source generator. -/
theorem claim_C3_interlace_event_pages
    (gens : List (List (List Event))) (h : SortedGens gens) :
    (interlace_event_pages gens).Perm (gens.map flatten_event_page_gen).flatten
    ∧ (interlace_event_pages gens).Pairwise timeLE
    ∧ (interlaceTagged (gens.map flatten_event_page_gen)).Pairwise
        (fun a b => a.2.time = b.2.time → a.1 ≤ b.1) := by
  have hs : ∀ s ∈ gens.map flatten_event_page_gen, s.Pairwise timeLE := by
    intro s hsm
    obtain ⟨g, hg, rfl⟩ := List.mem_map.mp hsm
    exact h g hg
  refine ⟨interlaceGo_perm (le_refl _), ?_, interlaceGo_stable hs⟩
  exact (List.pairwise_map).mpr (interlaceGo_sorted hs)

/-- Witness for C3 at a concrete pair of generators with a timestamp tie. -/
theorem claim_C3_interlace_event_pages_witness :
    SortedGens
      [[[⟨1, 1, "a", [], []⟩, ⟨3, 2, "b", [], []⟩]],
       [[⟨2, 1, "c", [], []⟩], [⟨3, 2, "d", [], []⟩]]]
    ∧ ((interlace_event_pages
          [[[⟨1, 1, "a", [], []⟩, ⟨3, 2, "b", [], []⟩]],
           [[⟨2, 1, "c", [], []⟩], [⟨3, 2, "d", [], []⟩]]]).Perm
        (([[[⟨1, 1, "a", [], []⟩, ⟨3, 2, "b", [], []⟩]],
           [[⟨2, 1, "c", [], []⟩], [⟨3, 2, "d", [], []⟩]]].map
             flatten_event_page_gen).flatten)
      ∧ (interlace_event_pages
          [[[⟨1, 1, "a", [], []⟩, ⟨3, 2, "b", [], []⟩]],
           [[⟨2, 1, "c", [], []⟩], [⟨3, 2, "d", [], []⟩]]]).Pairwise timeLE
      ∧ (interlaceTagged
          ([[[⟨1, 1, "a", [], []⟩, ⟨3, 2, "b", [], []⟩]],
            [[⟨2, 1, "c", [], []⟩], [⟨3, 2, "d", [], []⟩]]].map
              flatten_event_page_gen)).Pairwise
          (fun a b => a.2.time = b.2.time → a.1 ≤ b.1)) :=
  ⟨by decide, claim_C3_interlace_event_pages _ (by decide)⟩

/-! ## `interlace_event_page_chunks` -/

/-- Modelled from the contract of the external `event_model.rechunk_event_pages`
collaborator: re-batch a lazy sequence of event pages into uniform pages of
`chunk_size` rows (the last page may be partial).  `fuel` is the total row
count; a `chunk_size` of zero would not terminate in Python either. -/
def rechunkGo : Nat → Nat → List Event → List (List Event)
  | 0, _, _ => []
  | _, _, [] => []
  | fuel + 1, c, l => l.take c :: rechunkGo fuel c (l.drop c)

/-- `event_model.rechunk_event_pages(g, chunk_size)` (external collaborator). -/
def rechunk_event_pages (g : List (List Event)) (chunk_size : Nat) :
    List (List Event) :=
  rechunkGo g.flatten.length chunk_size g.flatten

/-- The heap key of an entry of `interlace_event_page_chunks`: the page's
leading timestamp `val['time'][0]` paired with the source index. -/
def pageKey (ip : Nat × List Event) : Nat × Nat :=
  ((ip.2.headD default).time, ip.1)

/-- Lexicographic comparison of heap keys (Python tuple comparison; the page
itself is never compared because source indices are distinct). -/
def keyLeB (a b : Nat × Nat) : Bool :=
  decide (a.1 < b.1 ∨ (a.1 = b.1 ∧ a.2 ≤ b.2))

/-- Insert one heap entry into a key-sorted list. -/
def insertPage (x : Nat × List Event) :
    List (Nat × List Event) → List (Nat × List Event)
  | [] => [x]
  | y :: rest =>
      if keyLeB (pageKey x) (pageKey y) then x :: y :: rest
      else y :: insertPage x rest

/-- Draining a heap by repeated `heappop` returns its entries in ascending
key order, modelled by sorting the seeded entries. -/
def sortPages (l : List (Nat × List Event)) : List (Nat × List Event) :=
  l.foldr insertPage []

/-- `interlace_event_page_chunks(*gens, chunk_size)`: each generator is
re-chunked, `safe_next(i)` seeds the heap with the first page of each source,
and then the loop pops the heap until it is empty.  Unlike
`interlace_event_pages`, the pop loop never calls `safe_next` again, so no
entry beyond the initial heads is ever pushed. -/
def interlace_event_page_chunks (chunk_size : Nat)
    (gens : List (List (List Event))) : List (List Event) :=
  let chunked := gens.map (fun g => rechunk_event_pages g chunk_size)
  let heap := chunked.enum.filterMap
    (fun p => p.2.head?.map (fun page => (p.1, page)))
  (sortPages heap).map Prod.snd

/-- C4 fails on the code: with a single generator holding three events and
`chunk_size = 2`, the re-chunked pages are `[e1, e2]` and `[e3]`, but only the
first page is ever yielded; the row `e3` is dropped, so the output does not
contain every input row. -/
theorem claim_C4_chunks_drop_rows :
    interlace_event_page_chunks 2
        [[[⟨1, 1, "a", [], []⟩, ⟨2, 2, "b", [], []⟩, ⟨3, 3, "c", [], []⟩]]]
      = [[⟨1, 1, "a", [], []⟩, ⟨2, 2, "b", [], []⟩]]
    ∧ (⟨3, 3, "c", [], []⟩ : Event) ∉
        (interlace_event_page_chunks 2
          [[[⟨1, 1, "a", [], []⟩, ⟨2, 2, "b", [], []⟩,
             ⟨3, 3, "c", [], []⟩]]]).flatten := by
  decide

/-! ## Run Reconstruction Engine (`BlueskyRun`) -/

/-- `BlueskyRun.PARTITION_SIZE`. -/
def PARTITION_SIZE : Nat := 100

/-- The state `BlueskyRun._load` computes and stores on `self`. -/
structure LoadRes where
  run_start_doc : StartDoc
  run_stop_doc : Option StopDoc
  descriptors : List Descriptor
  offset : Nat
  count : Nat
  npartitions : Nat
deriving Repr

theorem foldl_add_map {α : Type} (f : α → Nat) (l : List α) (n : Nat) :
    l.foldl (fun c d => c + f d) n = n + (l.map f).sum := by
  induction l generalizing n with
  | nil => simp
  | cons a l ih => simp [ih, Nat.add_assoc]

namespace BlueskyRun

/-- `BlueskyRun._load`: recompute the run's stop/start/descriptors, the total
logical document count and `npartitions = int(numpy.ceil(count / PARTITION_SIZE))`
(exact ceiling division; the float round trip is exact at realistic counts). -/
def _load (r : RunM) : LoadRes :=
  let run_stop_doc := r.get_run_stop
  let run_start_doc := r.get_run_start
  let descriptors := r.get_event_descriptors
  let offset := descriptors.length + 1
  let count := 1
  let descriptor_uids := descriptors.map Descriptor.uid
  let count := count + descriptor_uids.length
  let count := descriptors.foldl (fun c doc => c + r.get_event_count doc.uid) count
  let count := count + (if run_stop_doc.isSome then 1 else 0)
  { run_start_doc := run_start_doc
    run_stop_doc := run_stop_doc
    descriptors := descriptors
    offset := offset
    count := count
    npartitions := (count + (PARTITION_SIZE - 1)) / PARTITION_SIZE }

end BlueskyRun

/-- C2: `_load` computes the total logical document count as
1 (start) + #descriptors + Σ events + 1 if a stop exists, and `npartitions`
is exactly `ceil(count / PARTITION_SIZE)` (characterised as the least `m`
with `count ≤ m * PARTITION_SIZE`). -/
theorem claim_C2_load_count_npartitions (r : RunM) :
    (BlueskyRun._load r).count
      = 1 + r.get_event_descriptors.length
        + (r.get_event_descriptors.map (fun d => r.get_event_count d.uid)).sum
        + (if r.get_run_stop.isSome then 1 else 0)
    ∧ (BlueskyRun._load r).count
        ≤ (BlueskyRun._load r).npartitions * PARTITION_SIZE
    ∧ ∀ m : Nat, (BlueskyRun._load r).count ≤ m * PARTITION_SIZE →
        (BlueskyRun._load r).npartitions ≤ m := by
  have hc : (BlueskyRun._load r).count
      = 1 + r.get_event_descriptors.length
        + (r.get_event_descriptors.map (fun d => r.get_event_count d.uid)).sum
        + (if r.get_run_stop.isSome then 1 else 0) := by
    simp [BlueskyRun._load, foldl_add_map]
  have hn : (BlueskyRun._load r).npartitions
      = ((BlueskyRun._load r).count + 99) / 100 := by
    simp [BlueskyRun._load, PARTITION_SIZE]
  refine ⟨hc, ?_, ?_⟩
  · rw [hn]
    have h1 := Nat.div_add_mod ((BlueskyRun._load r).count + 99) 100
    have h2 : ((BlueskyRun._load r).count + 99) % 100 < 100 :=
      Nat.mod_lt _ (by norm_num)
    simp only [PARTITION_SIZE]
    omega
  · intro m hm
    rw [hn]
    have h1 := Nat.div_add_mod ((BlueskyRun._load r).count + 99) 100
    have h2 : ((BlueskyRun._load r).count + 99) % 100 < 100 :=
      Nat.mod_lt _ (by norm_num)
    simp only [PARTITION_SIZE] at hm
    omega

/-! ## External-Data Filler (`BlueskyRun._fill`) -/

/-- The datum ids referenced by the event's unfilled fields, in
`event['filled']` iteration order (unfilled fields hold datum-id strings in
`event['data']`; well-formed events assumed for non-string values). -/
def unfilledDatumIds (ev : Event) : List String :=
  ev.filled.filterMap (fun kf =>
    if kf.2 then none
    else match alookup ev.data kf.1 with
      | some (.s d) => some d
      | _ => none)

/-- Modelled from the spec (external `event_model.Filler`): attempting to
fill `ev` against the filler's datum cache `st` raises
`UnresolvableForeignKeyError` carrying the first unfilled datum id absent
from the cache, or succeeds when every referenced datum id is cached. -/
def fillerEvent (st : List String) (ev : Event) : Option String :=
  (unfilledDatumIds ev).find? (fun d => !(st.contains d))

/-- Modelled from the spec (external `event_model.Filler`): a successful fill
replaces each unfilled field's datum id with its resolved value and marks
every field filled. -/
def fillEventDataP (resolve : String → Value) (ev : Event) : Event :=
  { ev with
    data := ev.data.map (fun kv =>
      match alookup ev.filled kv.1, kv.2 with
      | some false, .s d => (kv.1, resolve d)
      | _, _ => kv)
    filled := ev.filled.map (fun kf => (kf.1, true)) }

/-- The in-place successful fill against a run's resolution map. -/
def fillEventData (r : RunM) (ev : Event) : Event :=
  fillEventDataP r.resolve ev

/-- `datum_id.split('/', 1)[0]` when `'/' in datum_id`, otherwise
`lookup_resource_for_datum(datum_id)` (strings handled as character lists,
so the check and the split stay kernel-computable). -/
def resolveResourceUid (r : RunM) (datum_id : String) : String :=
  if datum_id.data.contains '/' then
    String.mk (datum_id.data.takeWhile (fun c => c ≠ '/'))
  else r.lookup_resource_for_datum datum_id

/-- Fetch the failing datum id's resource and register the resource and all
of its datum pages with the filler: the cache gains every datum id of every
datum page of that one resource. -/
def registerResource (r : RunM) (st : List String) (datum_id : String) :
    List String :=
  st ++ ((r.get_datum_pages (resolveResourceUid r datum_id)).map
          DatumPage.datum_id).flatten

/-- Number of the event's unfilled datum ids missing from the cache. -/
def unregCount (ev : Event) (st : List String) : Nat :=
  ((unfilledDatumIds ev).filter (fun d => !(st.contains d))).length

/-- 0 exactly when the next fill attempt fails with the id we just tried
(the bounded-retry's terminal state). -/
def fillFlag (ev : Event) (st : List String) (last : Option String) : Nat :=
  match fillerEvent st ev with
  | some d => if last = some d then 0 else 1
  | none => 1

theorem fillFlag_le_one (ev : Event) (st : List String) (last : Option String) :
    fillFlag ev st last ≤ 1 := by
  unfold fillFlag
  split
  · split <;> omega
  · omega

theorem filter_length_mono {α : Type} (l : List α) {p q : α → Bool}
    (h : ∀ x, p x = true → q x = true) :
    (l.filter p).length ≤ (l.filter q).length := by
  induction l with
  | nil => simp
  | cons a l ih =>
    rw [List.filter_cons, List.filter_cons]
    by_cases hp : p a = true
    · rw [if_pos hp, if_pos (h a hp)]
      simpa using ih
    · rw [if_neg hp]
      by_cases hq : q a = true
      · rw [if_pos hq]
        exact Nat.le_succ_of_le ih
      · rw [if_neg hq]
        exact ih

theorem filter_length_strict {α : Type} (l : List α) {p q : α → Bool}
    (h : ∀ x, p x = true → q x = true) {d : α} (hd : d ∈ l)
    (hq : q d = true) (hp : p d = false) :
    (l.filter p).length < (l.filter q).length := by
  induction l with
  | nil => cases hd
  | cons a l ih =>
    rw [List.filter_cons, List.filter_cons]
    rcases List.mem_cons.mp hd with rfl | hd'
    · rw [if_neg (by simp [hp]), if_pos hq]
      exact Nat.lt_succ_of_le (filter_length_mono l h)
    · by_cases hpa : p a = true
      · rw [if_pos hpa, if_pos (h a hpa)]
        simpa using ih hd'
      · rw [if_neg hpa]
        by_cases hqa : q a = true
        · rw [if_pos hqa]
          exact Nat.lt_succ_of_lt (ih hd')
        · rw [if_neg hqa]
          exact ih hd'

theorem find?_switch {α : Type} {l : List α} {p q : α → Bool} {d : α}
    (h : l.find? p = some d) (himp : ∀ x, q x = true → p x = true)
    (hqd : q d = true) : l.find? q = some d := by
  induction l with
  | nil => simp at h
  | cons a l ih =>
    by_cases hpa : p a = true
    · simp only [List.find?, hpa] at h
      simp only [Option.some.injEq] at h
      subst h
      simp [List.find?, hqd]
    · simp only [List.find?] at h
      rw [Bool.eq_false_iff.mpr hpa] at h
      have hqa : q a = false := by
        by_contra hc
        exact hpa (himp a (by simpa using hc))
      simp only [List.find?]
      rw [hqa]
      exact ih h

theorem contains_mono_append {st l : List String} {x : String}
    (h : st.contains x = true) : (st ++ l).contains x = true := by
  have hm : x ∈ st := by simpa using h
  simpa using List.mem_append_left l hm

namespace BlueskyRun

/-- `BlueskyRun._fill(event, last_datum_id)`: try the filler; on an
unresolvable datum id, if it equals the id that failed on the immediately
preceding trip, re-raise; otherwise resolve its resource (embedded-uid prefix
first, explicit lookup as fallback), register the resource and all of its
datum pages with the filler, and re-enter with the failing id recorded.
Returns the filled event and the filler's grown datum cache. -/
def _fill (r : RunM) (ev : Event) (st : List String) (last : Option String) :
    Except PyErr (Event × List String) :=
  match h : fillerEvent st ev with
  | none => .ok (fillEventData r ev, st)
  | some datum_id =>
    if hl : last = some datum_id then .error (.unresolvableForeignKey datum_id)
    else
      _fill r ev (registerResource r st datum_id) (some datum_id)
termination_by 2 * unregCount ev st + fillFlag ev st last
decreasing_by
  have hfind : (unfilledDatumIds ev).find? (fun d => !(st.contains d))
      = some datum_id := h
  have hflag : fillFlag ev st last = 1 := by
    simp only [fillFlag, h]
    rw [if_neg hl]
  have himp : ∀ x : String, (!((registerResource r st datum_id).contains x)) = true
      → (!(st.contains x)) = true := by
    intro x hx
    simp only [Bool.not_eq_true'] at hx ⊢
    by_contra hcx
    have h1 : st.contains x = true := by
      rcases Bool.eq_false_or_eq_true (st.contains x) with h' | h'
      · exact h'
      · exact absurd h' hcx
    have h2 := contains_mono_append (l := ((r.get_datum_pages
        (resolveResourceUid r datum_id)).map DatumPage.datum_id).flatten) h1
    rw [registerResource] at hx
    rw [h2] at hx
    cases hx
  have hle : unregCount ev (registerResource r st datum_id) ≤ unregCount ev st :=
    filter_length_mono _ himp
  have hmem : datum_id ∈ unfilledDatumIds ev := List.mem_of_find?_eq_some hfind
  by_cases hc : (registerResource r st datum_id).contains datum_id = true
  · have hstrict : unregCount ev (registerResource r st datum_id)
        < unregCount ev st := by
      refine filter_length_strict _ himp hmem ?_ ?_
      · simpa using List.find?_some hfind
      · show (!((registerResource r st datum_id).contains datum_id)) = false
        rw [hc]
        rfl
    have := fillFlag_le_one ev (registerResource r st datum_id) (some datum_id)
    omega
  · have hcf : (registerResource r st datum_id).contains datum_id = false := by
      rcases Bool.eq_false_or_eq_true
        ((registerResource r st datum_id).contains datum_id) with h' | h'
      · exact absurd h' hc
      · exact h'
    have hstill : fillerEvent (registerResource r st datum_id) ev
        = some datum_id := by
      show (unfilledDatumIds ev).find?
        (fun d => !((registerResource r st datum_id).contains d)) = some datum_id
      refine find?_switch hfind himp ?_
      show (!((registerResource r st datum_id).contains datum_id)) = true
      rw [hcf]
      rfl
    have hzero : fillFlag ev (registerResource r st datum_id) (some datum_id)
        = 0 := by
      simp [fillFlag, hstill]
    omega

end BlueskyRun

/-- C5: if the filler fails on `ev` with datum id `d` (the first
unresolvable-datum failure), `_fill` fetches exactly one resource — the one
resolved from `d` — registers all of that resource's datum pages, and retries
the same event with `d` recorded as the last failing id; and if the same `d`
fails again on that immediately following retry, the unresolvable-reference
error is raised to the caller. -/
theorem fill_of_some_new {r : RunM} {ev : Event} {st : List String}
    {last : Option String} {d : String} (h : fillerEvent st ev = some d)
    (hl : last ≠ some d) :
    BlueskyRun._fill r ev st last
      = BlueskyRun._fill r ev (registerResource r st d) (some d) := by
  rw [BlueskyRun._fill]
  split
  · next heq => rw [heq] at h; cases h
  · next d' heq =>
    rw [heq] at h
    injection h with h
    subst h
    rw [dif_neg hl]

theorem fill_of_some_repeat {r : RunM} {ev : Event} {st : List String}
    {last : Option String} {d : String} (h : fillerEvent st ev = some d)
    (hl : last = some d) :
    BlueskyRun._fill r ev st last = .error (.unresolvableForeignKey d) := by
  rw [BlueskyRun._fill]
  split
  · next heq => rw [heq] at h; cases h
  · next d' heq =>
    rw [heq] at h
    injection h with h
    subst h
    rw [dif_pos hl]

theorem claim_C5_fill_bounded_retry (r : RunM) (ev : Event) (st : List String)
    (d : String) (h : fillerEvent st ev = some d) :
    BlueskyRun._fill r ev st none
      = BlueskyRun._fill r ev (registerResource r st d) (some d)
    ∧ (fillerEvent (registerResource r st d) ev = some d →
        BlueskyRun._fill r ev st none
          = .error (.unresolvableForeignKey d)) := by
  have h1 : BlueskyRun._fill r ev st none
      = BlueskyRun._fill r ev (registerResource r st d) (some d) :=
    fill_of_some_new h (by simp)
  exact ⟨h1, fun h2 => by rw [h1, fill_of_some_repeat h2 rfl]⟩

/-- An event referencing one unfilled, externally stored field. -/
def fillEvW : Event :=
  ⟨5, 1, "e0", [("img", .s "r1-d1")], [("img", false)]⟩

/-- A run whose asset accessors know the resource `"r1"` but whose datum
pages do not contain the datum id `"r1-d1"`, so a retry fails again. -/
def fillRunW : RunM :=
  { get_run_start := ⟨"s", 0⟩
    get_run_stop := none
    get_event_descriptors := []
    get_event_pages := fun _ => []
    get_event_count := fun _ => 0
    get_resource := fun u => ⟨u, "AD_HDF5"⟩
    lookup_resource_for_datum := fun _ => "r1"
    get_datum_pages := fun _ => [⟨"r1", ["r1-other"]⟩]
    resolve := fun _ => .i 42 }

/-- Witness for C5 at a concrete event and filler state. -/
theorem claim_C5_fill_bounded_retry_witness :
    fillerEvent [] fillEvW = some "r1-d1"
    ∧ (BlueskyRun._fill fillRunW fillEvW [] none
        = BlueskyRun._fill fillRunW fillEvW
            (registerResource fillRunW [] "r1-d1") (some "r1-d1")
      ∧ (fillerEvent (registerResource fillRunW [] "r1-d1") fillEvW
            = some "r1-d1" →
          BlueskyRun._fill fillRunW fillEvW [] none
            = .error (.unresolvableForeignKey "r1-d1"))) :=
  ⟨by decide, claim_C5_fill_bounded_retry fillRunW fillEvW [] "r1-d1" (by decide)⟩

/-! ## Partition reads (`read_partition_unfilled` / `read_partition`) -/

instance instDecEqExcept {ε α : Type} [DecidableEq ε] [DecidableEq α] :
    DecidableEq (Except ε α) := fun a b =>
  match a, b with
  | .ok x, .ok y =>
      if h : x = y then isTrue (by rw [h])
      else isFalse (by intro hc; cases hc; exact h rfl)
  | .error x, .error y =>
      if h : x = y then isTrue (by rw [h])
      else isFalse (by intro hc; cases hc; exact h rfl)
  | .ok _, .error _ => isFalse (by intro hc; cases hc)
  | .error _, .ok _ => isFalse (by intro hc; cases hc)

/-- `itertools.islice(iterable, start, stop)`: the elements whose indices lie
in `[start, stop)` (empty when `stop ≤ start`). -/
def islice {α : Type} (l : List α) (start stop : Nat) : List α :=
  (l.drop start).take (stop - start)

namespace BlueskyRun

/-- One `(key, is_filled)` entry of the inner loop of
`read_partition_unfilled`: for an unfilled key whose datum id has not been
seen in this partition, emit the resource document and then all of its datum
pages, recording every datum id they carry.  State: (seen datum ids, payload
so far). -/
def processFilledEntry (r : RunM) (ev : Event)
    (acc : List String × List Doc) (kf : String × Bool) :
    Except PyErr (List String × List Doc) :=
  if kf.2 then .ok acc
  else
    match alookup ev.data kf.1 with
    | none => .error .keyError
    | some (.s datum_id) =>
        if acc.1.contains datum_id then .ok acc
        else
          let resource_uid := resolveResourceUid r datum_id
          let resource := r.get_resource resource_uid
          .ok ((r.get_datum_pages resource_uid).foldl
            (fun (a : List String × List Doc) page =>
              (a.1 ++ page.datum_id, a.2 ++ [Doc.datum_page page]))
            (acc.1, acc.2 ++ [Doc.resource resource]))
    | some _ => .error .typeError

/-- `BlueskyRun.read_partition_unfilled(i)` (the `raw = True` partition read):
header documents sliced from `chain(start, descriptors)`, then events sliced
from the interlaced stream with `islice(events, skip, limit)` exactly as the
source writes it — `skip = max(0, start - len(payload))` and
`limit = stop - start - len(payload)` — with resource/datum_page documents
emitted ahead of each event that references unseen datum ids, and the RunStop
appended on the last partition.  (The Mongo-internal `_id` stripping has no
counterpart here because the model's documents carry no `_id`.) -/
def read_partition_unfilled (r : RunM) (i : Nat) : Except PyErr (List Doc) := do
  let L := _load r
  let start := i * PARTITION_SIZE
  let stop := (1 + i) * PARTITION_SIZE
  let headerDocs : List Doc :=
    Doc.start L.run_start_doc :: L.descriptors.map Doc.descriptor
  let payload := if start < L.offset then islice headerDocs start stop else []
  let descriptor_uids := L.descriptors.map Descriptor.uid
  let skip := start - payload.length
  let limit := stop - start - payload.length
  if limit > 0 then
    let events := islice
      (interlace_event_pages (descriptor_uids.map r.get_event_pages)) skip limit
    let res ← events.foldlM
      (fun (acc : List String × List Doc) ev => do
        let acc' ← ev.filled.foldlM (processFilledEntry r ev) acc
        pure (acc'.1, acc'.2 ++ [Doc.event ev]))
      (([] : List String), payload)
    if i = L.npartitions - 1 ∧ L.run_stop_doc.isSome then
      pure (res.2 ++ [Doc.stop (L.run_stop_doc.getD default)])
    else
      pure res.2
  else
    pure payload

/-- `BlueskyRun.read_partition(index)` with `index = (i, raw)`: the raw branch
delegates to `read_partition_unfilled`; otherwise the same slicing feeds each
event through `_fill` (filling in place; the filler's datum cache `st` is
threaded through), and only start/descriptor/event/stop documents are
emitted. -/
def read_partition (r : RunM) (st : List String) (index : Nat × Bool) :
    Except PyErr (List Doc × List String) := do
  let (i, raw) := index
  if raw then
    let docs ← read_partition_unfilled r i
    pure (docs, st)
  else
    let L := _load r
    let start := i * PARTITION_SIZE
    let stop := (1 + i) * PARTITION_SIZE
    let headerDocs : List Doc :=
      Doc.start L.run_start_doc :: L.descriptors.map Doc.descriptor
    let payload := if start < L.offset then islice headerDocs start stop else []
    let descriptor_uids := L.descriptors.map Descriptor.uid
    let skip := start - payload.length
    let limit := stop - start - payload.length
    if limit > 0 then
      let events := islice
        (interlace_event_pages (descriptor_uids.map r.get_event_pages)) skip limit
      -- `filler('descriptor', descriptor)` registers schemas only; it does
      -- not change the modelled datum cache.
      let res ← events.foldlM
        (fun (acc : List Doc × List String) ev => do
          let (evFilled, st') ← _fill r ev acc.2 none
          pure (acc.1 ++ [Doc.event evFilled], st'))
        (payload, st)
      if i = L.npartitions - 1 ∧ L.run_stop_doc.isSome then
        pure (res.1 ++ [Doc.stop (L.run_stop_doc.getD default)], res.2)
      else
        pure res
    else
      pure (payload, st)

/-- `BlueskyRun.canonical_unfilled()`: concatenate
`read_partition((i, True))` for `i = 0 .. npartitions - 1`. -/
def canonical_unfilled (r : RunM) : Except PyErr (List Doc) := do
  let L := _load r
  (List.range L.npartitions).foldlM
    (fun acc i => do
      let docs ← read_partition_unfilled r i
      pure (acc ++ docs))
    ([] : List Doc)

/-- `BlueskyRun.canonical()`: concatenate `read_partition((i, False))` for
`i = 0 .. npartitions - 1`, threading the filler state. -/
def canonical (r : RunM) (st : List String) : Except PyErr (List Doc) := do
  let L := _load r
  let res ← (List.range L.npartitions).foldlM
    (fun (acc : List Doc × List String) i => do
      let (docs, st') ← read_partition r acc.2 (i, false)
      pure (acc.1 ++ docs, st'))
    (([] : List Doc), st)
  pure res.1

end BlueskyRun

/-- The run's full canonical document sequence as the spec describes it:
start, descriptors, time-ordered events, stop if present.  (Stated from the
spec's words; C1 compares the partition concatenation against it.) -/
def fullDocSequence (r : RunM) : List Doc :=
  let L := BlueskyRun._load r
  Doc.start L.run_start_doc :: L.descriptors.map Doc.descriptor
    ++ (interlace_event_pages
          ((L.descriptors.map Descriptor.uid).map r.get_event_pages)).map Doc.event
    ++ (match L.run_stop_doc with
        | some sd => [Doc.stop sd]
        | none => [])

/-- The single descriptor of the C1 counterexample run. -/
def descD1 : Descriptor :=
  ⟨"d1", "primary", [("x", ⟨"number", [], none, false⟩)], []⟩

/-- A run with one descriptor, 150 fully inline events and a stop document:
153 logical documents, hence two partitions. -/
def run150 : RunM :=
  { get_run_start := ⟨"start-uid", 0⟩
    get_run_stop := some ⟨"stop-uid", 200, "success"⟩
    get_event_descriptors := [descD1]
    get_event_pages := fun _ =>
      [(List.range 150).map (fun k => (⟨k + 1, k + 1, "", [], []⟩ : Event))]
    get_event_count := fun _ => 150
    get_resource := fun u => ⟨u, ""⟩
    lookup_resource_for_datum := fun _ => ""
    get_datum_pages := fun _ => []
    resolve := fun _ => .i 0 }

/-- C1 fails on the code: for `run150` (153 documents, 2 partitions) the
concatenation of the raw partitions is 101 documents — the events at indices
98..149 are never emitted.  Partition 1 computes `skip = 100`, `limit = 100`
and slices `islice(events, 100, 100)`, which is empty, because the source
passes `limit` as islice's *stop* argument (and `skip` ignores the header
offset); the concatenation therefore has a gap against the full canonical
sequence. -/
theorem claim_C1_partition_concat_gap :
    (BlueskyRun._load run150).count = 153
    ∧ (BlueskyRun._load run150).npartitions = 2
    ∧ BlueskyRun.canonical_unfilled run150
        = .ok (Doc.start ⟨"start-uid", 0⟩ :: Doc.descriptor descD1 ::
            ((List.range 98).map
              (fun k => Doc.event ⟨k + 1, k + 1, "", [], []⟩)
             ++ [Doc.stop ⟨"stop-uid", 200, "success"⟩]))
    ∧ (fullDocSequence run150).length = 153
    ∧ Doc.event ⟨99, 99, "", [], []⟩ ∈ fullDocSequence run150
    ∧ Doc.event ⟨99, 99, "", [], []⟩ ∉
        (Doc.start ⟨"start-uid", 0⟩ :: Doc.descriptor descD1 ::
          ((List.range 98).map
            (fun k => Doc.event ⟨k + 1, k + 1, "", [], []⟩)
           ++ [Doc.stop ⟨"stop-uid", 200, "success"⟩])) := by
  set_option maxRecDepth 10000 in
  refine ⟨by decide, by decide, by decide, by decide, by decide, by decide⟩

/-- Witness for C2 at the concrete run `run150`. -/
theorem claim_C2_load_count_npartitions_witness :
    (BlueskyRun._load run150).count
      = 1 + run150.get_event_descriptors.length
        + (run150.get_event_descriptors.map
            (fun d => run150.get_event_count d.uid)).sum
        + (if run150.get_run_stop.isSome then 1 else 0)
    ∧ (BlueskyRun._load run150).count
        ≤ (BlueskyRun._load run150).npartitions * PARTITION_SIZE
    ∧ ∀ m : Nat, (BlueskyRun._load run150).count ≤ m * PARTITION_SIZE →
        (BlueskyRun._load run150).npartitions ≤ m :=
  claim_C2_load_count_npartitions run150

/-! ## `MongoMetadataStoreCatalog` entry lookup (src/intake_bluesky.py) -/

/-- A `run_start` document as stored in the Mongo collection. -/
structure RunStartDoc where
  uid : String
  time : Nat
  scan_id : Int
deriving DecidableEq, Repr, Inhabited

/-- The catalog: its `run_start` collection in natural (insertion) order and
its standing `_query` filter. -/
structure MongoCatalog where
  run_start_collection : List RunStartDoc
  query : RunStartDoc → Bool

/-- Modelled from the spec §6 document-store contract (pymongo collaborator):
`find(query)` filters in natural order. -/
def mongoFind (cat : MongoCatalog) (extra : RunStartDoc → Bool) :
    List RunStartDoc :=
  cat.run_start_collection.filter (fun d => cat.query d && extra d)

/-- Insert into a list sorted by descending `time` (stable). -/
def insertTimeDesc (x : RunStartDoc) : List RunStartDoc → List RunStartDoc
  | [] => [x]
  | y :: rest =>
      if y.time < x.time then x :: y :: rest else y :: insertTimeDesc x rest

/-- Modelled from the pymongo collaborator: `.sort('time', DESCENDING)`. -/
def sortTimeDesc (l : List RunStartDoc) : List RunStartDoc :=
  l.foldr insertTimeDesc []

/-- Modelled from the pymongo collaborator: `.limit(n)` returns at most `|n|`
documents (a negative limit means `|n|` in a single batch; 0 means no limit). -/
def mongoLimit (n : Int) (l : List RunStartDoc) : List RunStartDoc :=
  if n = 0 then l else l.take n.natAbs

/-- A lookup key as it reaches `Entries.__getitem__` after the
`int(name)`-or-string parse. -/
inductive EntryKey where
  | int (n : Int)
  | str (s : String)
deriving DecidableEq, Repr

/-- `Entries.__getitem__` of `MongoMetadataStoreCatalog`: negative integers
mean "Nth from last" (sort descending, `limit(name)`, then `*_, doc = cursor`),
non-negative integers mean "most recent run with `scan_id == name`"
(`limit(1)`, then `doc, = cursor`), and strings are uid lookups via
`find_one`, raising `KeyError` when `find_one` returns `None`.  Unpacking an
empty cursor raises `ValueError`, not `KeyError`. -/
def Entries.getitem (cat : MongoCatalog) (name : EntryKey) :
    Except PyErr RunStartDoc :=
  match name with
  | .int n =>
      if n < 0 then
        let cursor := mongoLimit n (sortTimeDesc (mongoFind cat (fun _ => true)))
        match cursor.getLast? with
        | none => .error .valueError
        | some doc => .ok doc
      else
        let cursor := mongoLimit 1
          (sortTimeDesc (mongoFind cat (fun d => d.scan_id == n)))
        match cursor with
        | [doc] => .ok doc
        | _ => .error .valueError
  | .str s =>
      match (mongoFind cat (fun d => d.uid == s)).head? with
      | some doc => .ok doc
      | none => .error .keyError

/-- A catalog holding one run with `scan_id = 1`. -/
def catW : MongoCatalog :=
  { run_start_collection := [⟨"u1", 10, 1⟩], query := fun _ => true }

/-- C10 fails on the code for integer lookups with no match: looking up
scan id 5 (absent) unpacks an empty cursor and raises `ValueError`, and
looking up `-2` in a one-run catalog silently returns the oldest run instead
of reporting a missing key; only the uid branch raises `KeyError`. -/
theorem claim_C10_missing_lookup_not_keyerror :
    Entries.getitem catW (.int 5) = .error .valueError
    ∧ Entries.getitem catW (.int (-2)) = .ok ⟨"u1", 10, 1⟩
    ∧ Entries.getitem { run_start_collection := [], query := fun _ => true }
        (.int (-1)) = .error .valueError
    ∧ Entries.getitem catW (.str "nope") = .error .keyError := by
  refine ⟨by decide, by decide, by decide, by decide⟩

/-! ## Document-to-Array Materializer (`documents_to_xarray`) -/

/-- One labeled array of a per-descriptor dataset: the constructor arguments
of `xarray.DataArray` (the labeled-array container itself is the out-of-scope
collaborator) — data along the leading `time` axis, dimension names, and the
`time` coordinate. -/
structure ArrM where
  data : List Value
  dims : List String
  coords_time : List Nat
deriving DecidableEq, Repr, Inhabited

/-- Python dict assignment `data_arrays[key] = value`: replace or append. -/
def dictSet (m : List (String × ArrM)) (k : String) (v : ArrM) :
    List (String × ArrM) :=
  if m.any (fun p => p.1 == k) then
    m.map (fun p => if p.1 == k then (k, v) else p)
  else m ++ [(k, v)]

/-- xarray's default dimension names `dim_0, dim_1, ...`. -/
def defaultDims (ndim : Nat) : List String :=
  (List.range ndim).map (fun i => "dim_" ++ toString i)

/-- Prefer the reported `dims` only when their count matches the observed
rank; otherwise fall back to the synthesized names. -/
def chooseDims (meta : DataKeyMeta) (ndim : Nat) : List String :=
  match meta.dims with
  | some ds => if ds.length = ndim then ds else defaultDims ndim
  | none => defaultDims ndim

/-- The inline fill-with-retry of `documents_to_xarray` (lines 285-297): try
the filler; on an unresolvable datum id, resolve its resource via
`lookup_resource_for_datum` (no embedded-uid parse here, unlike `_fill`),
register all of that resource's datum pages, and try the same event once
more; a second failure propagates out of the `except` block uncaught. -/
def fillWithRetryD2X (resolve : String → Value)
    (lookup_resource_for_datum : String → String)
    (get_datum_pages : String → List DatumPage)
    (st : List String) (ev : Event) : Except PyErr (Event × List String) :=
  match fillerEvent st ev with
  | none => .ok (fillEventDataP resolve ev, st)
  | some datum_id =>
      let resource_uid := lookup_resource_for_datum datum_id
      let st' := st ++ ((get_datum_pages resource_uid).map
                          DatumPage.datum_id).flatten
      match fillerEvent st' ev with
      | none => .ok (fillEventDataP resolve ev, st')
      | some d2 => .error (.unresolvableForeignKey d2)

/-- `_transpose(events, keys, 'data')`: one column per key; a missing field
raises `KeyError` (the source fills row-major, which errors on the same
inputs). -/
def _transpose (in_data : List Event) (keys : List String) :
    Except PyErr (List (String × List Value)) :=
  keys.mapM (fun k => do
    let col ← in_data.mapM (fun ev =>
      match alookup ev.data k with
      | some v => Except.ok v
      | none => Except.error PyErr.keyError)
    pure (k, col))

/-- The per-key loop building DataArrays for Event data (lines 310-331):
`data_keys[key]` metadata, rank sampled from `data_table[key][0]`, reported
dims kept only when their count matches. -/
def eventArraysFor (data_keysSt : List (String × DataKeyMeta))
    (keysSt : List String) (table : List (String × List Value))
    (times : List Nat) : Except PyErr (List (String × ArrM)) :=
  keysSt.mapM (fun key => do
    match alookup data_keysSt key with
    | none => Except.error PyErr.keyError
    | some meta =>
      match alookup table key with
      | none => Except.error PyErr.keyError
      | some col =>
        match col with
        | [] => Except.error PyErr.indexError
        | v0 :: _ =>
            pure (key, ArrM.mk col ("time" :: chooseDims meta v0.ndim) times))

/-- The config-key selection of one configuration object (lines 338-347).
(`incl`/`excl` stand for the
source's `include`/`exclude`, which are Lean keywords.)  The `excl` branch
reproduces the source verbatim: it filters with `if v not in include` —
`incl`, not `excl`. -/
def selectedScoped (incl excl : List String) (object_name : String)
    (cfg : DeviceConfig) : List (String × DataKeyMeta × String) :=
  let scoped_data_keys := cfg.data_keys.map
    (fun p => (p.1, p.2, object_name ++ ":" ++ p.1))
  if incl ≠ [] then scoped_data_keys.filter (fun t => incl.contains t.2.2)
  else if excl ≠ [] then
    scoped_data_keys.filter (fun t => !(incl.contains t.2.2))
  else scoped_data_keys

/-- The per-key loop building DataArrays for configuration data
(lines 348-372): the single configuration value is tiled along the time axis
to the number of events, stored under the scoped `device:field` key. -/
def configPairs (incl excl : List String) (object_name : String)
    (cfg : DeviceConfig) (times : List Nat) :
    Except PyErr (List (String × ArrM)) :=
  (selectedScoped incl excl object_name cfg).mapM (fun t => do
    match alookup cfg.data t.1 with
    | none => Except.error PyErr.keyError
    | some v =>
        pure (t.2.2, ArrM.mk (List.replicate times.length v)
          ("time" :: chooseDims t.2.1 v.ndim) times))

/-- The mutable locals of `documents_to_xarray` that survive from one
descriptor iteration to the next: the shared filler's datum cache, and the
`data_keys` / `keys` variables, which the configuration section rebinds. -/
structure D2XState where
  filler_cache : List String
  data_keys : List (String × DataKeyMeta)
  keys : List String
  datasets : List (List (String × ArrM))
deriving Repr

/-- One iteration of the `for descriptor in descriptor_docs` loop of
`documents_to_xarray` (lines 279-386). -/
def processDescriptor (get_event_pages : String → List (List Event))
    (resolve : String → Value) (lookup_resource_for_datum : String → String)
    (get_datum_pages : String → List DatumPage)
    (incl excl : List String) (st : D2XState) (descriptor : Descriptor) :
    Except PyErr D2XState := do
  let events := (get_event_pages descriptor.uid).flatten
  if events.isEmpty then
    pure st
  else do
    let exts ← st.keys.mapM (fun key =>
      match alookup st.data_keys key with
      | none => Except.error PyErr.keyError
      | some meta => pure meta.external)
    -- filler('descriptor', descriptor) only registers the schema.
    let filled ←
      if exts.any id then
        events.foldlM
          (fun (acc : List Event × List String) ev => do
            let (ev', c') ← fillWithRetryD2X resolve lookup_resource_for_datum
              get_datum_pages acc.2 ev
            pure (acc.1 ++ [ev'], c'))
          (([] : List Event), st.filler_cache)
      else pure (events, st.filler_cache)
    let events' := filled.1
    let times := events'.map Event.time
    let seq_nums := events'.map Event.seq_num
    let uids := events'.map Event.uid
    let table ← _transpose events' st.keys
    let evPairs ← eventArraysFor st.data_keys st.keys table times
    let data_arrays := evPairs.foldl (fun m p => dictSet m p.1 p.2) []
    let cfgRes ← descriptor.configuration.foldlM
      (fun (acc : List (String × DataKeyMeta) × List String ×
                  List (String × ArrM)) oc => do
        let pairs ← configPairs incl excl oc.1 oc.2 times
        let m' := pairs.foldl (fun m p => dictSet m p.1 p.2) acc.2.2
        pure (oc.2.data_keys,
              (selectedScoped incl excl oc.1 oc.2).map (fun t => t.1),
              m'))
      (st.data_keys, st.keys, data_arrays)
    let withSeq := dictSet cfgRes.2.2 "seq_num"
      (ArrM.mk (seq_nums.map (fun n => Value.i n)) ["time"] times)
    let withUid := dictSet withSeq "uid"
      (ArrM.mk (uids.map Value.s) ["time"] times)
    pure { filler_cache := filled.2
           data_keys := cfgRes.1
           keys := cfgRes.2.1
           datasets := st.datasets ++ [withUid] }

/-- `documents_to_xarray(...)`: the include/exclude mutual-exclusion check,
the field selection from the first descriptor's `data_keys`, and the
per-descriptor loop.  The result is the list of per-descriptor datasets that
the source hands to `xarray.merge` (the merge itself belongs to the
out-of-scope labeled-array collaborator). -/
def documents_to_xarray (start_doc : StartDoc) (stop_doc : Option StopDoc)
    (descriptor_docs : List Descriptor)
    (get_event_pages : String → List (List Event))
    (filler_cache : List String) (resolve : String → Value)
    (get_resource : String → Resource)
    (lookup_resource_for_datum : String → String)
    (get_datum_pages : String → List DatumPage)
    (incl excl : List String) :
    Except PyErr (List (List (String × ArrM))) :=
  if incl ≠ [] ∧ excl ≠ [] then .error .valueError
  else
    match descriptor_docs with
    | [] => .ok []  -- the loop never runs; xarray.merge([]) is empty
    | d0 :: _ =>
      let data_keys0 := d0.data_keys
      let keys0 :=
        if incl ≠ [] then
          (data_keys0.map Prod.fst).filter (fun k => incl.contains k)
        else if excl ≠ [] then
          (data_keys0.map Prod.fst).filter (fun k => !(excl.contains k))
        else data_keys0.map Prod.fst
      (descriptor_docs.foldlM
        (processDescriptor get_event_pages resolve lookup_resource_for_datum
          get_datum_pages incl excl)
        { filler_cache := filler_cache, data_keys := data_keys0,
          keys := keys0, datasets := [] }).map D2XState.datasets

/-- C6: when both `include` and `exclude` are non-empty,
`documents_to_xarray` raises `ValueError`: the check precedes the descriptor
loop, so the result is this error for every possible accessor callback — no
accessor's behaviour can influence (or be influenced by) the call. -/
theorem claim_C6_include_exclude_mutual_exclusion
    (start_doc : StartDoc) (stop_doc : Option StopDoc)
    (descriptor_docs : List Descriptor)
    (gep : String → List (List Event)) (cache : List String)
    (resolve : String → Value) (gr : String → Resource)
    (lrd : String → String) (gdp : String → List DatumPage)
    (incl excl : List String) (h1 : incl ≠ []) (h2 : excl ≠ []) :
    documents_to_xarray start_doc stop_doc descriptor_docs gep cache resolve
      gr lrd gdp incl excl = .error .valueError := by
  unfold documents_to_xarray
  rw [if_pos ⟨h1, h2⟩]

/-- Witness for C6 at concrete arguments. -/
theorem claim_C6_include_exclude_mutual_exclusion_witness :
    (["a"] : List String) ≠ [] ∧ (["b"] : List String) ≠ []
    ∧ documents_to_xarray ⟨"s", 0⟩ none [] (fun _ => []) [] (fun _ => .i 0)
        (fun u => ⟨u, ""⟩) (fun _ => "") (fun _ => []) ["a"] ["b"]
      = .error .valueError :=
  ⟨by decide, by decide,
   claim_C6_include_exclude_mutual_exclusion ⟨"s", 0⟩ none [] (fun _ => [])
     [] (fun _ => .i 0) (fun u => ⟨u, ""⟩) (fun _ => "") (fun _ => [])
     ["a"] ["b"] (by decide) (by decide)⟩

/-- Shared metadata for the concrete materializer runs: a plain scalar
field with no reported dims and no external flag. -/
def metaPlain : DataKeyMeta := ⟨"number", [], none, false⟩

/-- First descriptor: event field `x`, configuration object `motor` with
one configuration field `velocity = 3`. -/
def descC8 : Descriptor :=
  ⟨"d1", "primary", [("x", metaPlain)],
   [("motor", ⟨[("velocity", metaPlain)], [("velocity", .i 3)]⟩)]⟩

/-- One event under `descC8`. -/
def evC8 : Event := ⟨10, 1, "e1", [("x", .i 1)], []⟩

/-- A descriptor with a two-object configuration section: `motor` with
configuration field `velocity = 3`, followed by `temp` with `setpoint = 7`. -/
def descC7 : Descriptor :=
  ⟨"d1", "primary", [("x", metaPlain)],
   [("motor", ⟨[("velocity", metaPlain)], [("velocity", .i 3)]⟩),
    ("temp", ⟨[("setpoint", metaPlain)], [("setpoint", .i 7)]⟩)]⟩

/-- C8 fails on the code: with `exclude = ["motor:velocity"]` the scoped
configuration key is *kept* — the configuration branch filters with
`if v not in include` instead of `exclude` — so the excluded key appears in
the dataset with its tiled value. -/
theorem claim_C8_excluded_config_key_not_omitted :
    documents_to_xarray ⟨"s", 0⟩ none [descC8] (fun _ => [[evC8]]) []
        (fun _ => .i 0) (fun u => ⟨u, ""⟩) (fun _ => "") (fun _ => [])
        [] ["motor:velocity"]
      = .ok [[("x", ⟨[.i 1], ["time"], [10]⟩),
              ("motor:velocity", ⟨[.i 3], ["time"], [10]⟩),
              ("seq_num", ⟨[.i 1], ["time"], [10]⟩),
              ("uid", ⟨[.s "e1"], ["time"], [10]⟩)]]
    ∧ alookup [("x", (⟨[.i 1], ["time"], [10]⟩ : ArrM)),
              ("motor:velocity", ⟨[.i 3], ["time"], [10]⟩),
              ("seq_num", ⟨[.i 1], ["time"], [10]⟩),
              ("uid", ⟨[.s "e1"], ["time"], [10]⟩)] "motor:velocity"
        = some ⟨[.i 3], ["time"], [10]⟩ := by
  refine ⟨by decide, by decide⟩

/-- Second descriptor of the same stream: same schema (`x`), no
configuration section. -/
def descC9b : Descriptor := ⟨"d2", "primary", [("x", metaPlain)], []⟩

/-- One event under `descC9b`; it happens to carry a `velocity` field too,
so the clobbered selection does not crash and the divergence is visible. -/
def evC9 : Event := ⟨20, 2, "e2", [("x", .i 2), ("velocity", .i 9)], []⟩

/-- Event pages for the C9 run. -/
def pagesC9 : String → List (List Event) :=
  fun u => if u = "d1" then [[evC8]] else [[evC9]]

/-- C9 fails on the code: after the first descriptor's configuration section
rebinds `data_keys`/`keys`, the second descriptor's event-data variables are
built from the first descriptor's *configuration* schema (`velocity`), not
from the first descriptor's event schema (`x`): `x` is absent from the second
dataset and `velocity` appears as an event-data variable instead. -/
theorem claim_C9_second_descriptor_clobbered_schema :
    documents_to_xarray ⟨"s", 0⟩ none [descC8, descC9b] pagesC9 []
        (fun _ => .i 0) (fun u => ⟨u, ""⟩) (fun _ => "") (fun _ => []) [] []
      = .ok [[("x", ⟨[.i 1], ["time"], [10]⟩),
              ("motor:velocity", ⟨[.i 3], ["time"], [10]⟩),
              ("seq_num", ⟨[.i 1], ["time"], [10]⟩),
              ("uid", ⟨[.s "e1"], ["time"], [10]⟩)],
             [("velocity", ⟨[.i 9], ["time"], [20]⟩),
              ("seq_num", ⟨[.i 2], ["time"], [20]⟩),
              ("uid", ⟨[.s "e2"], ["time"], [20]⟩)]]
    ∧ alookup [("velocity", (⟨[.i 9], ["time"], [20]⟩ : ArrM)),
              ("seq_num", ⟨[.i 2], ["time"], [20]⟩),
              ("uid", ⟨[.s "e2"], ["time"], [20]⟩)] "x" = none
    ∧ alookup [("velocity", (⟨[.i 9], ["time"], [20]⟩ : ArrM)),
              ("seq_num", ⟨[.i 2], ["time"], [20]⟩),
              ("uid", ⟨[.s "e2"], ["time"], [20]⟩)] "velocity"
        = some ⟨[.i 9], ["time"], [20]⟩ := by
  refine ⟨by decide, by decide, by decide⟩

/-! ## C7: configuration broadcast — helper lemmas -/

theorem exbind_ok {ε α β : Type} (a : α) (f : α → Except ε β) :
    (Except.ok a >>= f) = f a := rfl

theorem exbind_err {ε α β : Type} (e : ε) (f : α → Except ε β) :
    ((Except.error e : Except ε α) >>= f) = .error e := rfl

theorem expure_eq_ok {ε α : Type} (a : α) : (pure a : Except ε α) = .ok a := rfl

theorem alookup_eq_some_mem {α : Type} {m : List (String × α)} {k : String}
    {a : α} (h : alookup m k = some a) : (k, a) ∈ m := by
  unfold alookup at h
  cases hf : m.find? (fun p => p.1 == k) with
  | none => rw [hf] at h; cases h
  | some p =>
    rw [hf] at h
    simp only [Option.map_some', Option.some.injEq] at h
    have h1 := List.find?_some hf
    have h2 : p.1 = k := by simpa using h1
    have h3 := List.mem_of_find?_eq_some hf
    have : p = (k, a) := by
      cases p
      simp only at h h2
      rw [h2, h]
    rw [← this]
    exact h3

theorem alookup_cons {α : Type} (p : String × α) (m : List (String × α))
    (k : String) :
    alookup (p :: m) k = if p.1 == k then some p.2 else alookup m k := by
  unfold alookup
  cases hpk : (p.1 == k) <;> simp [List.find?, hpk]

theorem alookup_map_replace {α : Type} {m : List (String × α)} {k k' : String}
    {v : α} (h : k ≠ k') :
    alookup (m.map (fun p => if p.1 == k' then (k', v) else p)) k
      = alookup m k := by
  induction m with
  | nil => rfl
  | cons p rest ih =>
    simp only [List.map_cons]
    by_cases hp : p.1 = k'
    · rw [if_pos (show (p.1 == k') = true by simpa using hp)]
      rw [alookup_cons, alookup_cons]
      rw [if_neg (show ¬ (((k', v) : String × α).1 == k) = true by
        simpa using Ne.symm h)]
      rw [if_neg (show ¬ (p.1 == k) = true by rw [hp]; simpa using Ne.symm h)]
      exact ih
    · rw [if_neg (show ¬ (p.1 == k') = true by simpa using hp)]
      rw [alookup_cons, alookup_cons]
      by_cases hpk : p.1 = k
      · rw [if_pos (show (p.1 == k) = true by simpa using hpk),
            if_pos (show (p.1 == k) = true by simpa using hpk)]
      · rw [if_neg (show ¬ (p.1 == k) = true by simpa using hpk),
            if_neg (show ¬ (p.1 == k) = true by simpa using hpk)]
        exact ih

theorem alookup_map_replace_hit {α : Type} {m : List (String × α)}
    {k : String} {v : α} (h : m.any (fun p => p.1 == k) = true) :
    alookup (m.map (fun p => if p.1 == k then (k, v) else p)) k = some v := by
  induction m with
  | nil => cases h
  | cons p rest ih =>
    simp only [List.map_cons]
    by_cases hp : p.1 = k
    · rw [if_pos (show (p.1 == k) = true by simpa using hp)]
      rw [alookup_cons]
      rw [if_pos (show (((k, v) : String × α).1 == k) = true by simp)]
    · have hb : (p.1 == k) = false := by simpa using hp
      rw [if_neg (show ¬ (p.1 == k) = true by simp [hb])]
      rw [alookup_cons]
      rw [if_neg (show ¬ (p.1 == k) = true by simp [hb])]
      apply ih
      simp only [List.any_cons, hb, Bool.false_or] at h
      exact h

theorem alookup_append {α : Type} (m₁ m₂ : List (String × α)) (k : String) :
    alookup (m₁ ++ m₂) k
      = match alookup m₁ k with
        | some v => some v
        | none => alookup m₂ k := by
  induction m₁ with
  | nil => rfl
  | cons p rest ih =>
    rw [List.cons_append, alookup_cons, alookup_cons]
    by_cases hp : p.1 = k
    · rw [if_pos (show (p.1 == k) = true by simpa using hp),
          if_pos (show (p.1 == k) = true by simpa using hp)]
    · rw [if_neg (show ¬ (p.1 == k) = true by simpa using hp),
          if_neg (show ¬ (p.1 == k) = true by simpa using hp)]
      exact ih

theorem alookup_none_of_not_any {α : Type} {m : List (String × α)} {k : String}
    (h : m.any (fun p => p.1 == k) = false) : alookup m k = none := by
  induction m with
  | nil => rfl
  | cons p rest ih =>
    simp only [List.any_cons, Bool.or_eq_false_iff] at h
    rw [alookup_cons, if_neg (show ¬ (p.1 == k) = true by simp [h.1])]
    exact ih h.2

theorem alookup_dictSet_self (m : List (String × ArrM)) (k : String) (v : ArrM) :
    alookup (dictSet m k v) k = some v := by
  unfold dictSet
  by_cases h : m.any (fun p => p.1 == k) = true
  · rw [if_pos h]
    exact alookup_map_replace_hit h
  · rw [if_neg h]
    rw [alookup_append]
    rw [alookup_none_of_not_any (Bool.eq_false_iff.mpr h)]
    rw [alookup_cons, if_pos (show ((k, v).1 == k) = true by simp)]

theorem alookup_dictSet_ne {k k' : String} (m : List (String × ArrM)) (v : ArrM)
    (h : k ≠ k') : alookup (dictSet m k' v) k = alookup m k := by
  unfold dictSet
  by_cases hm : m.any (fun p => p.1 == k') = true
  · rw [if_pos hm]
    exact alookup_map_replace h
  · rw [if_neg hm]
    rw [alookup_append]
    have hone : alookup [((k', v) : String × ArrM)] k = none := by
      rw [alookup_cons,
          if_neg (show ¬ (((k', v) : String × ArrM).1 == k) = true by
            simpa using Ne.symm h)]
      rfl
    rw [hone]
    cases alookup m k <;> rfl

theorem alookup_foldl_dictSet_not_mem {pairs : List (String × ArrM)}
    {k : String} (h : k ∉ pairs.map Prod.fst) (m : List (String × ArrM)) :
    alookup (pairs.foldl (fun m p => dictSet m p.1 p.2) m) k = alookup m k := by
  induction pairs generalizing m with
  | nil => rfl
  | cons p rest ih =>
    simp only [List.map_cons, List.mem_cons, not_or] at h
    simp only [List.foldl_cons]
    rw [ih h.2, alookup_dictSet_ne m p.2 h.1]

theorem alookup_foldl_dictSet_mem {pairs : List (String × ArrM)}
    {k : String} {v : ArrM} (hmem : (k, v) ∈ pairs)
    (hnd : (pairs.map Prod.fst).Nodup) (m : List (String × ArrM)) :
    alookup (pairs.foldl (fun m p => dictSet m p.1 p.2) m) k = some v := by
  induction pairs generalizing m with
  | nil => cases hmem
  | cons p rest ih =>
    obtain ⟨pk, pv⟩ := p
    simp only [List.map_cons, List.nodup_cons] at hnd
    simp only [List.foldl_cons]
    rcases List.mem_cons.mp hmem with heq | hmem'
    · injection heq with h1 h2
      subst h1
      subst h2
      rw [alookup_foldl_dictSet_not_mem hnd.1]
      exact alookup_dictSet_self m k v
    · exact ih hmem' hnd.2 _

theorem except_mapM_forall₂ {α β : Type} {f : α → Except PyErr β} :
    ∀ {l : List α} {out : List β}, l.mapM f = .ok out →
      List.Forall₂ (fun x y => f x = .ok y) l out := by
  intro l
  induction l with
  | nil =>
    intro out h
    simp only [List.mapM_nil, expure_eq_ok, Except.ok.injEq] at h
    rw [← h]
    exact List.Forall₂.nil
  | cons x l ih =>
    intro out h
    rw [List.mapM_cons] at h
    cases hfx : f x with
    | error e => rw [hfx, exbind_err] at h; cases h
    | ok y =>
      rw [hfx, exbind_ok] at h
      cases hml : l.mapM f with
      | error e => rw [hml, exbind_err] at h; cases h
      | ok ys =>
        rw [hml, exbind_ok, expure_eq_ok] at h
        injection h with h
        rw [← h]
        exact List.Forall₂.cons hfx (ih hml)

theorem forall₂_mem_left {α β : Type} {R : α → β → Prop} :
    ∀ {l : List α} {out : List β}, List.Forall₂ R l out → ∀ {x}, x ∈ l →
      ∃ y ∈ out, R x y := by
  intro l out h
  induction h with
  | nil => intro x hx; cases hx
  | cons hR _ ih =>
    intro x hx
    rcases List.mem_cons.mp hx with rfl | hx'
    · exact ⟨_, List.mem_cons_self _ _, hR⟩
    · obtain ⟨y, hy, hRy⟩ := ih hx'
      exact ⟨y, List.mem_cons_of_mem _ hy, hRy⟩

theorem forall₂_map_fst {α β : Type} {R : α → (String × β) → Prop}
    {g : α → String} (hg : ∀ t y, R t y → y.1 = g t) :
    ∀ {l : List α} {out : List (String × β)}, List.Forall₂ R l out →
      out.map Prod.fst = l.map g := by
  intro l out h
  induction h with
  | nil => rfl
  | cons hR h ih =>
    simp only [List.map_cons, List.cons.injEq]
    exact ⟨hg _ _ hR, ih⟩

theorem fillWithRetryD2X_time {resolve : String → Value}
    {lrd : String → String} {gdp : String → List DatumPage}
    {st : List String} {ev ev' : Event} {st' : List String}
    (h : fillWithRetryD2X resolve lrd gdp st ev = .ok (ev', st')) :
    ev'.time = ev.time := by
  unfold fillWithRetryD2X at h
  cases h1 : fillerEvent st ev with
  | none =>
    simp only [h1] at h
    injection h with h
    injection h with h _
    rw [← h]
    rfl
  | some datum_id =>
    simp only [h1] at h
    cases h2 : fillerEvent (st ++ ((gdp (lrd datum_id)).map
        DatumPage.datum_id).flatten) ev with
    | none =>
      simp only [h2] at h
      injection h with h
      injection h with h _
      rw [← h]
      rfl
    | some d2 => simp only [h2] at h; cases h

theorem fillFold_times {resolve : String → Value} {lrd : String → String}
    {gdp : String → List DatumPage} :
    ∀ (evs : List Event) (acc : List Event × List String)
      (res : List Event × List String),
      evs.foldlM
        (fun (acc : List Event × List String) ev => do
          let (ev', c') ← fillWithRetryD2X resolve lrd gdp acc.2 ev
          pure (acc.1 ++ [ev'], c'))
        acc = .ok res →
      res.1.map Event.time = acc.1.map Event.time ++ evs.map Event.time := by
  intro evs
  induction evs with
  | nil =>
    intro acc res h
    simp only [List.foldlM_nil, expure_eq_ok, Except.ok.injEq] at h
    rw [← h]
    simp
  | cons ev rest ih =>
    intro acc res h
    rw [List.foldlM_cons] at h
    cases hf : fillWithRetryD2X resolve lrd gdp acc.2 ev with
    | error e => rw [hf, exbind_err] at h; cases h
    | ok p =>
      rw [hf] at h
      obtain ⟨ev', c'⟩ := p
      rw [exbind_ok] at h
      have := ih (acc.1 ++ [ev'], c') res h
      rw [this]
      simp only [List.map_append, List.map_cons, List.map_nil, List.append_assoc,
        List.cons_append, List.nil_append]
      rw [fillWithRetryD2X_time hf]

theorem selectedScoped_nil_nil (obj : String) (cfg : DeviceConfig) :
    selectedScoped [] [] obj cfg
      = cfg.data_keys.map (fun p => (p.1, p.2, obj ++ ":" ++ p.1)) := by
  unfold selectedScoped
  simp

theorem configPairs_forall₂ {incl excl : List String} {obj : String}
    {cfg : DeviceConfig} {times : List Nat} {pairs : List (String × ArrM)}
    (h : configPairs incl excl obj cfg times = .ok pairs) :
    List.Forall₂
      (fun (t : String × DataKeyMeta × String) (y : String × ArrM) =>
        (match alookup cfg.data t.1 with
         | none => Except.error PyErr.keyError
         | some v => Except.ok (t.2.2, ArrM.mk (List.replicate times.length v)
             ("time" :: chooseDims t.2.1 v.ndim) times)) = .ok y)
      (selectedScoped incl excl obj cfg) pairs := by
  unfold configPairs at h
  exact except_mapM_forall₂ h

theorem configPairs_keys {incl excl : List String} {obj : String}
    {cfg : DeviceConfig} {times : List Nat} {pairs : List (String × ArrM)}
    (h : configPairs incl excl obj cfg times = .ok pairs) :
    pairs.map Prod.fst
      = (selectedScoped incl excl obj cfg).map (fun t => t.2.2) := by
  refine forall₂_map_fst ?_ (configPairs_forall₂ h)
  intro t y hty
  cases halo : alookup cfg.data t.1 with
  | none => rw [halo] at hty; cases hty
  | some v =>
    rw [halo] at hty
    injection hty with hty
    rw [← hty]

theorem configPairs_mem {obj : String} {cfg : DeviceConfig} {times : List Nat}
    {pairs : List (String × ArrM)}
    (h : configPairs [] [] obj cfg times = .ok pairs)
    {k : String} {meta : DataKeyMeta} (hk : (k, meta) ∈ cfg.data_keys)
    {v : Value} (hv : alookup cfg.data k = some v) :
    (obj ++ ":" ++ k,
     ArrM.mk (List.replicate times.length v)
       ("time" :: chooseDims meta v.ndim) times) ∈ pairs := by
  have hmem : ((k, meta, obj ++ ":" ++ k) : String × DataKeyMeta × String)
      ∈ selectedScoped [] [] obj cfg := by
    rw [selectedScoped_nil_nil]
    exact List.mem_map_of_mem _ hk
  obtain ⟨y, hy, hR⟩ := forall₂_mem_left (configPairs_forall₂ h) hmem
  rw [show alookup cfg.data ((k, meta, obj ++ ":" ++ k) :
      String × DataKeyMeta × String).1 = some v from hv] at hR
  injection hR with hR
  have h2 : (obj ++ ":" ++ k,
      ArrM.mk (List.replicate times.length v)
        ("time" :: chooseDims meta v.ndim) times) = y := hR
  rw [h2]
  exact hy

theorem exbind_ok_inv {ε α β : Type} {x : Except ε α} {f : α → Except ε β}
    {b : β} (h : (x >>= f) = .ok b) : ∃ a, x = .ok a ∧ f a = .ok b := by
  cases x with
  | error e => rw [exbind_err] at h; cases h
  | ok a => rw [exbind_ok] at h; exact ⟨a, rfl, h⟩

theorem processDescriptor_datasets_mono
    {gep : String → List (List Event)} {resolve : String → Value}
    {lrd : String → String} {gdp : String → List DatumPage}
    {incl excl : List String} {st st₂ : D2XState} {d : Descriptor}
    (h : processDescriptor gep resolve lrd gdp incl excl st d = .ok st₂) :
    ∃ suffix, st₂.datasets = st.datasets ++ suffix := by
  simp only [processDescriptor] at h
  by_cases hemp : ((gep d.uid).flatten).isEmpty = true
  · rw [if_pos hemp, expure_eq_ok] at h
    injection h with h
    refine ⟨[], ?_⟩
    rw [← h, List.append_nil]
  · rw [if_neg hemp] at h
    obtain ⟨exts, _, h⟩ := exbind_ok_inv h
    by_cases hany : exts.any id = true
    · rw [if_pos hany] at h
      obtain ⟨filled, _, h⟩ := exbind_ok_inv h
      obtain ⟨table, _, h⟩ := exbind_ok_inv h
      obtain ⟨evPairs, _, h⟩ := exbind_ok_inv h
      obtain ⟨cfgRes, _, h⟩ := exbind_ok_inv h
      rw [expure_eq_ok] at h
      injection h with h
      exact ⟨_, by rw [← h]⟩
    · rw [if_neg hany] at h
      obtain ⟨filled, _, h⟩ := exbind_ok_inv h
      obtain ⟨table, _, h⟩ := exbind_ok_inv h
      obtain ⟨evPairs, _, h⟩ := exbind_ok_inv h
      obtain ⟨cfgRes, _, h⟩ := exbind_ok_inv h
      rw [expure_eq_ok] at h
      injection h with h
      exact ⟨_, by rw [← h]⟩

theorem foldlM_datasets_mono
    {gep : String → List (List Event)} {resolve : String → Value}
    {lrd : String → String} {gdp : String → List DatumPage}
    {incl excl : List String} :
    ∀ (descs : List Descriptor) (st stF : D2XState),
      descs.foldlM (processDescriptor gep resolve lrd gdp incl excl) st
        = .ok stF →
      ∃ suffix, stF.datasets = st.datasets ++ suffix := by
  intro descs
  induction descs with
  | nil =>
    intro st stF h
    simp only [List.foldlM_nil, expure_eq_ok, Except.ok.injEq] at h
    exact ⟨[], by rw [← h, List.append_nil]⟩
  | cons d rest ih =>
    intro st stF h
    rw [List.foldlM_cons] at h
    obtain ⟨st', h1, h2⟩ := exbind_ok_inv h
    obtain ⟨s1, hs1⟩ := processDescriptor_datasets_mono h1
    obtain ⟨s2, hs2⟩ := ih st' stF h2
    exact ⟨s1 ++ s2, by rw [hs2, hs1, List.append_assoc]⟩

theorem foldlM_descriptor_contributes
    {gep : String → List (List Event)} {resolve : String → Value}
    {lrd : String → String} {gdp : String → List DatumPage}
    {incl excl : List String} (P : List (String × ArrM) → Prop) :
    ∀ (descs : List Descriptor) (j : Nat) (d : Descriptor) (st stF : D2XState),
      descs.foldlM (processDescriptor gep resolve lrd gdp incl excl) st
        = .ok stF →
      descs[j]? = some d →
      (∀ st₁ st₂ : D2XState,
        processDescriptor gep resolve lrd gdp incl excl st₁ d = .ok st₂ →
        ∃ ds, st₂.datasets = st₁.datasets ++ [ds] ∧ P ds) →
      ∃ ds ∈ stF.datasets, P ds := by
  intro descs
  induction descs with
  | nil => intro j d st stF h hj _; simp at hj
  | cons d₀ rest ih =>
    intro j d st stF h hj hstep
    rw [List.foldlM_cons] at h
    obtain ⟨st', h1, h2⟩ := exbind_ok_inv h
    cases j with
    | zero =>
      simp only [List.getElem?_cons_zero, Option.some.injEq] at hj
      subst hj
      obtain ⟨ds, hds, hP⟩ := hstep st st' h1
      obtain ⟨suffix, hsuf⟩ := foldlM_datasets_mono rest st' stF h2
      refine ⟨ds, ?_, hP⟩
      rw [hsuf, hds]
      simp
    | succ j =>
      exact ih j d st' stF h2 (by simpa using hj) hstep

theorem cfgFold_alookup_frame (times : List Nat) :
    ∀ (L : List (String × DeviceConfig))
      (acc accF : List (String × DataKeyMeta) × List String ×
                  List (String × ArrM)),
      L.foldlM
        (fun (acc : List (String × DataKeyMeta) × List String ×
                    List (String × ArrM)) oc => do
          let pairs ← configPairs [] [] oc.1 oc.2 times
          pure (oc.2.data_keys,
                (selectedScoped [] [] oc.1 oc.2).map
                  (fun (t : String × DataKeyMeta × String) => t.1),
                pairs.foldl
                  (fun m (p : String × ArrM) => dictSet m p.1 p.2) acc.2.2))
        acc = .ok accF →
      ∀ scopedKey : String,
        (∀ oc ∈ L,
          scopedKey ∉ oc.2.data_keys.map (fun p => oc.1 ++ ":" ++ p.1)) →
        alookup accF.2.2 scopedKey = alookup acc.2.2 scopedKey := by
  intro L
  induction L with
  | nil =>
    intro acc accF h scopedKey hnot
    simp only [List.foldlM_nil, expure_eq_ok, Except.ok.injEq] at h
    rw [← h]
  | cons oc rest ih =>
    intro acc accF h scopedKey hnot
    rw [List.foldlM_cons] at h
    obtain ⟨acc', hstep, hrest⟩ := exbind_ok_inv h
    obtain ⟨pairs, hcp, hpure⟩ := exbind_ok_inv hstep
    rw [expure_eq_ok] at hpure
    injection hpure with hpure
    have hkeys : pairs.map Prod.fst
        = oc.2.data_keys.map (fun p => oc.1 ++ ":" ++ p.1) := by
      rw [configPairs_keys hcp, selectedScoped_nil_nil]
      simp [List.map_map, Function.comp]
    have hnothead : scopedKey ∉ pairs.map Prod.fst := by
      rw [hkeys]
      exact hnot oc (List.mem_cons_self _ _)
    have htail := ih acc' accF hrest scopedKey
      (fun oc' hoc' => hnot oc' (List.mem_cons_of_mem _ hoc'))
    rw [htail, ← hpure]
    exact alookup_foldl_dictSet_not_mem hnothead _

theorem cfgFold_alookup_hit (times : List Nat) :
    ∀ (pre : List (String × DeviceConfig)) (obj : String) (cfg : DeviceConfig)
      (post : List (String × DeviceConfig))
      (acc accF : List (String × DataKeyMeta) × List String ×
                  List (String × ArrM)),
      (pre ++ (obj, cfg) :: post).foldlM
        (fun (acc : List (String × DataKeyMeta) × List String ×
                    List (String × ArrM)) oc => do
          let pairs ← configPairs [] [] oc.1 oc.2 times
          pure (oc.2.data_keys,
                (selectedScoped [] [] oc.1 oc.2).map
                  (fun (t : String × DataKeyMeta × String) => t.1),
                pairs.foldl
                  (fun m (p : String × ArrM) => dictSet m p.1 p.2) acc.2.2))
        acc = .ok accF →
      ∀ (k : String) (meta : DataKeyMeta) (v : Value),
        alookup cfg.data_keys k = some meta →
        alookup cfg.data k = some v →
        (cfg.data_keys.map (fun p => obj ++ ":" ++ p.1)).Nodup →
        (∀ oc ∈ post,
          (obj ++ ":" ++ k) ∉ oc.2.data_keys.map (fun p => oc.1 ++ ":" ++ p.1)) →
        alookup accF.2.2 (obj ++ ":" ++ k)
          = some (ArrM.mk (List.replicate times.length v)
              ("time" :: chooseDims meta v.ndim) times) := by
  intro pre
  induction pre with
  | nil =>
    intro obj cfg post acc accF h k meta v hk hv hnodupObj hpost
    rw [List.nil_append, List.foldlM_cons] at h
    obtain ⟨acc', hstep, hrest⟩ := exbind_ok_inv h
    obtain ⟨pairs, hcp, hpure⟩ := exbind_ok_inv hstep
    rw [expure_eq_ok] at hpure
    injection hpure with hpure
    have hmem := configPairs_mem hcp (alookup_eq_some_mem hk) hv
    have hnd : (pairs.map Prod.fst).Nodup := by
      rw [configPairs_keys hcp, selectedScoped_nil_nil]
      simpa [List.map_map, Function.comp] using hnodupObj
    have hhit : alookup acc'.2.2 (obj ++ ":" ++ k)
        = some (ArrM.mk (List.replicate times.length v)
            ("time" :: chooseDims meta v.ndim) times) := by
      rw [← hpure]
      exact alookup_foldl_dictSet_mem hmem hnd _
    rw [cfgFold_alookup_frame times post acc' accF hrest _ hpost]
    exact hhit
  | cons p pre' ih =>
    intro obj cfg post acc accF h k meta v hk hv hnodupObj hpost
    rw [List.cons_append, List.foldlM_cons] at h
    obtain ⟨acc', _, hrest⟩ := exbind_ok_inv h
    exact ih obj cfg post acc' accF hrest k meta v hk hv hnodupObj hpost

theorem processDescriptor_config_key
    {gep : String → List (List Event)} {resolve : String → Value}
    {lrd : String → String} {gdp : String → List DatumPage}
    {st st₂ : D2XState} {d : Descriptor}
    (h : processDescriptor gep resolve lrd gdp [] [] st d = .ok st₂)
    {obj : String} {cfg : DeviceConfig}
    {pre post : List (String × DeviceConfig)}
    (hcfg : d.configuration = pre ++ (obj, cfg) :: post)
    {k : String} {meta : DataKeyMeta} (hk : alookup cfg.data_keys k = some meta)
    {v : Value} (hv : alookup cfg.data k = some v)
    (hnev : (gep d.uid).flatten ≠ [])
    (hnodup : (cfg.data_keys.map (fun p => obj ++ ":" ++ p.1)).Nodup)
    (hpost : ∀ oc ∈ post,
      (obj ++ ":" ++ k) ∉ oc.2.data_keys.map (fun p => oc.1 ++ ":" ++ p.1))
    (hseq : obj ++ ":" ++ k ≠ "seq_num") (huid : obj ++ ":" ++ k ≠ "uid") :
    ∃ ds, st₂.datasets = st.datasets ++ [ds]
      ∧ alookup ds (obj ++ ":" ++ k)
          = some (ArrM.mk (List.replicate ((gep d.uid).flatten).length v)
              ("time" :: chooseDims meta v.ndim)
              (((gep d.uid).flatten).map Event.time)) := by
  simp only [processDescriptor] at h
  have hemp : ¬ (((gep d.uid).flatten).isEmpty = true) := by
    simpa using hnev
  rw [if_neg hemp] at h
  obtain ⟨exts, hexts, h⟩ := exbind_ok_inv h
  by_cases hany : exts.any id = true
  · rw [if_pos hany] at h
    obtain ⟨filled, hfill, h⟩ := exbind_ok_inv h
    have htimes : filled.1.map Event.time
        = ((gep d.uid).flatten).map Event.time := by
      have ht := fillFold_times ((gep d.uid).flatten)
        (([] : List Event), st.filler_cache) filled hfill
      simpa using ht
    obtain ⟨table, htab, h⟩ := exbind_ok_inv h
    obtain ⟨evPairs, hev, h⟩ := exbind_ok_inv h
    obtain ⟨cfgRes, hcfg2, h⟩ := exbind_ok_inv h
    rw [expure_eq_ok] at h
    injection h with h
    rw [hcfg] at hcfg2
    have hhit := cfgFold_alookup_hit (filled.1.map Event.time) pre obj cfg post
      _ cfgRes hcfg2 k meta v hk hv hnodup hpost
    rw [htimes, List.length_map] at hhit
    subst h
    refine ⟨_, rfl, ?_⟩
    rw [alookup_dictSet_ne _ _ huid, alookup_dictSet_ne _ _ hseq]
    exact hhit
  · rw [if_neg hany] at h
    obtain ⟨filled, hfill, h⟩ := exbind_ok_inv h
    have htimes : filled.1.map Event.time
        = ((gep d.uid).flatten).map Event.time := by
      rw [expure_eq_ok] at hfill
      injection hfill with hfill
      rw [← hfill]
    obtain ⟨table, htab, h⟩ := exbind_ok_inv h
    obtain ⟨evPairs, hev, h⟩ := exbind_ok_inv h
    obtain ⟨cfgRes, hcfg2, h⟩ := exbind_ok_inv h
    rw [expure_eq_ok] at h
    injection h with h
    rw [hcfg] at hcfg2
    have hhit := cfgFold_alookup_hit (filled.1.map Event.time) pre obj cfg post
      _ cfgRes hcfg2 k meta v hk hv hnodup hpost
    rw [htimes, List.length_map] at hhit
    subst h
    refine ⟨_, rfl, ?_⟩
    rw [alookup_dictSet_ne _ _ huid, alookup_dictSet_ne _ _ hseq]
    exact hhit

/-- C7: whenever `documents_to_xarray` succeeds with no include/exclude
filters, every descriptor with at least one event contributes a dataset in
which each configuration field of each object in its configuration section
(the object may sit at any position: `configuration = pre ++ (obj, cfg) ::
post`) appears under the scoped key `device:field`, with the single
configuration value tiled along the time axis to exactly the number of
events under that descriptor. The side conditions rule out scoped-key
collisions inside the object itself, with the objects processed after it
(a later object writing the same scoped key would overwrite the entry),
and with the synthetic `seq_num`/`uid` fields. -/
theorem claim_C7_config_broadcast
    (start_doc : StartDoc) (stop_doc : Option StopDoc)
    (descriptor_docs : List Descriptor)
    (gep : String → List (List Event)) (cache : List String)
    (resolve : String → Value) (gr : String → Resource)
    (lrd : String → String) (gdp : String → List DatumPage)
    (out : List (List (String × ArrM)))
    (hok : documents_to_xarray start_doc stop_doc descriptor_docs gep cache
      resolve gr lrd gdp [] [] = .ok out)
    (j : Nat) (d : Descriptor) (hj : descriptor_docs[j]? = some d)
    (obj : String) (cfg : DeviceConfig)
    (pre post : List (String × DeviceConfig))
    (hcfg : d.configuration = pre ++ (obj, cfg) :: post)
    (k : String) (meta : DataKeyMeta) (hk : alookup cfg.data_keys k = some meta)
    (v : Value) (hv : alookup cfg.data k = some v)
    (hnev : (gep d.uid).flatten ≠ [])
    (hnodup : (cfg.data_keys.map (fun p => obj ++ ":" ++ p.1)).Nodup)
    (hpost : ∀ oc ∈ post,
      (obj ++ ":" ++ k) ∉ oc.2.data_keys.map (fun p => oc.1 ++ ":" ++ p.1))
    (hseq : obj ++ ":" ++ k ≠ "seq_num") (huid : obj ++ ":" ++ k ≠ "uid") :
    ∃ ds ∈ out, alookup ds (obj ++ ":" ++ k)
      = some (ArrM.mk (List.replicate ((gep d.uid).flatten).length v)
          ("time" :: chooseDims meta v.ndim)
          (((gep d.uid).flatten).map Event.time)) := by
  obtain ⟨d0, rest, rfl⟩ : ∃ d0 rest, descriptor_docs = d0 :: rest := by
    cases descriptor_docs with
    | nil => simp at hj
    | cons d0 rest => exact ⟨d0, rest, rfl⟩
  unfold documents_to_xarray at hok
  rw [if_neg (by simp)] at hok
  have hok' : ((d0 :: rest).foldlM
      (processDescriptor gep resolve lrd gdp [] [])
      { filler_cache := cache, data_keys := d0.data_keys,
        keys := d0.data_keys.map Prod.fst, datasets := [] }).map
      D2XState.datasets = .ok out := hok
  cases hfold : (d0 :: rest).foldlM
      (processDescriptor gep resolve lrd gdp [] [])
      { filler_cache := cache, data_keys := d0.data_keys,
        keys := d0.data_keys.map Prod.fst, datasets := [] } with
  | error e =>
    rw [hfold] at hok'
    cases hok'
  | ok stF =>
    rw [hfold] at hok'
    have hout : stF.datasets = out := by
      injection hok' with hok'
    obtain ⟨ds, hmem, hP⟩ := foldlM_descriptor_contributes
      (fun ds => alookup ds (obj ++ ":" ++ k)
        = some (ArrM.mk (List.replicate ((gep d.uid).flatten).length v)
            ("time" :: chooseDims meta v.ndim)
            (((gep d.uid).flatten).map Event.time)))
      (d0 :: rest) j d _ stF hfold hj
      (fun st₁ st₂ hpd =>
        processDescriptor_config_key hpd hcfg hk hv hnev hnodup hpost hseq huid)
    exact ⟨ds, hout ▸ hmem, hP⟩

/-- Witness for C7 at the concrete stream `descC7`, whose configuration
section holds two objects (`motor` then `temp`); the property is checked for
the first object's field with the second object still to be processed. -/
theorem claim_C7_config_broadcast_witness :
    documents_to_xarray ⟨"s", 0⟩ none [descC7] (fun _ => [[evC8]]) []
        (fun _ => .i 0) (fun u => ⟨u, ""⟩) (fun _ => "") (fun _ => []) [] []
      = .ok [[("x", ⟨[.i 1], ["time"], [10]⟩),
              ("motor:velocity", ⟨[.i 3], ["time"], [10]⟩),
              ("temp:setpoint", ⟨[.i 7], ["time"], [10]⟩),
              ("seq_num", ⟨[.i 1], ["time"], [10]⟩),
              ("uid", ⟨[.s "e1"], ["time"], [10]⟩)]]
    ∧ ∃ ds ∈ [[(("x" : String), (⟨[.i 1], ["time"], [10]⟩ : ArrM)),
              ("motor:velocity", ⟨[.i 3], ["time"], [10]⟩),
              ("temp:setpoint", ⟨[.i 7], ["time"], [10]⟩),
              ("seq_num", ⟨[.i 1], ["time"], [10]⟩),
              ("uid", ⟨[.s "e1"], ["time"], [10]⟩)]],
        alookup ds ("motor" ++ ":" ++ "velocity")
          = some (ArrM.mk
              (List.replicate (((fun (_ : String) => [[evC8]]) descC7.uid).flatten).length (.i 3))
              ("time" :: chooseDims metaPlain (Value.i 3).ndim)
              ((((fun (_ : String) => [[evC8]]) descC7.uid).flatten).map Event.time)) :=
  ⟨by decide,
   claim_C7_config_broadcast ⟨"s", 0⟩ none [descC7] (fun _ => [[evC8]]) []
     (fun _ => .i 0) (fun u => ⟨u, ""⟩) (fun _ => "") (fun _ => [])
     [[("x", ⟨[.i 1], ["time"], [10]⟩),
       ("motor:velocity", ⟨[.i 3], ["time"], [10]⟩),
       ("temp:setpoint", ⟨[.i 7], ["time"], [10]⟩),
       ("seq_num", ⟨[.i 1], ["time"], [10]⟩),
       ("uid", ⟨[.s "e1"], ["time"], [10]⟩)]]
     (by decide) 0 descC7 (by decide) "motor"
     ⟨[("velocity", metaPlain)], [("velocity", .i 3)]⟩
     [] [("temp", ⟨[("setpoint", metaPlain)], [("setpoint", .i 7)]⟩)]
     (by decide) "velocity" metaPlain (by decide) (.i 3) (by decide)
     (by decide) (by decide) (by decide) (by decide) (by decide)⟩


end IntakeBluesky
